import Mathlib

/-!
# Verification of the keyed time-series CSV store of MoneyManagementExport

This file gives a shallow embedding of `save_prices_to_csv` (src/main.py,
lines 234-316) and of the declared column schema (src/config_schemas.py,
`csv_header_config`), and proves/refutes the specification claims about it.

Modelling conventions:

* The backing CSV file is modelled at field granularity as
  `List (List String)` — one inner list of raw textual fields per line,
  the header line included.  Python's `csv` module is a deterministic,
  injective line codec (minimal quoting), so two runs produce
  byte-identical files iff they produce identical field-row lists; all
  "byte-identical" statements are stated at this granularity.
* Python `float` values that flow through the program are exact decimals
  `(mantissa, exponent)` normalised so that the fraction has no trailing
  zero.  `float(s)` for the plain decimal literals handled by this program
  followed by `str(...)` returns the shortest decimal representation of
  the value (Python's repr round-trip guarantee); the normalised-decimal
  model has exactly this observable behaviour.  Exotic inputs accepted by
  Python's `float` (exponents, `inf`/`nan`, underscores, surrounding
  whitespace, signed zero) are outside the model.
* `datetime.strptime(s, "%Y-%m-%d")` (via `sc_utility.DateHelper`) is
  modelled as a strict parse of `year-month-day` with 1-4/1-2/1-2 digit
  components and full calendar validation; `DateHelper` is a thin wrapper
  of the standard library (it is an external package, not part of this
  repository).
* Python dicts are insertion-ordered association lists; assignment to an
  existing key replaces the value in place, a new key is appended.
* An uncaught Python exception makes the modelled operation return `none`.
  One deliberate coarsening: `list.sort` raises `TypeError` only when a
  comparison between a `None`-valued and a string-valued sort key is
  actually executed; the model treats any dataset reaching the sort with a
  non-string `Symbol`/`Date` value as failing uniformly.  Such datasets
  require a mismatched header combined with short rows and never occur in
  the runs the claims quantify over.
-/

/-! ## Python string comparison (code-point lexicographic) -/

/-- Python's `<` on strings, on the underlying character lists:
lexicographic by Unicode code point, a proper prefix is smaller. -/
def pyCharsLt : List Char → List Char → Bool
  | _, [] => false
  | [], _ :: _ => true
  | a :: as, b :: bs =>
    if a.toNat < b.toNat then true
    else if b.toNat < a.toNat then false
    else pyCharsLt as bs

/-- Python's `<` on strings. -/
def pyStrLt (a b : String) : Bool := pyCharsLt a.data b.data

theorem pyCharsLt_irrefl : ∀ a, pyCharsLt a a = false
  | [] => rfl
  | c :: cs => by simp [pyCharsLt, pyCharsLt_irrefl cs]

theorem pyCharsLt_asymm : ∀ a b, pyCharsLt a b = true → pyCharsLt b a = false
  | a, [], h => by cases a <;> simp [pyCharsLt] at h
  | [], _ :: _, _ => rfl
  | a :: as, b :: bs, h => by
    by_cases hab : a.toNat < b.toNat
    · have : ¬ b.toNat < a.toNat := by omega
      simp [pyCharsLt, this, hab]
    · by_cases hba : b.toNat < a.toNat
      · simp [pyCharsLt, hab, hba] at h
      · have heq : ¬ a.toNat < b.toNat := hab
        simp [pyCharsLt, hab, hba] at h ⊢
        exact pyCharsLt_asymm as bs h

theorem pyCharsLt_trans :
    ∀ a b c, pyCharsLt a b = true → pyCharsLt b c = true → pyCharsLt a c = true
  | _, b, [], _, h2 => by cases b <;> simp [pyCharsLt] at h2
  | [], _, _ :: _, _, _ => rfl
  | a :: as, b, c :: cs, h1, h2 => by
    match b, h1, h2 with
    | [], h1, _ => cases h1
    | b :: bs, h1, h2 =>
      by_cases hab : a.toNat < b.toNat <;> by_cases hbc : b.toNat < c.toNat
      · have : a.toNat < c.toNat := by omega
        simp [pyCharsLt, this]
      · by_cases hcb : c.toNat < b.toNat
        · simp [pyCharsLt, hbc, hcb] at h2
        · have : b.toNat = c.toNat := by omega
          have : a.toNat < c.toNat := by omega
          simp [pyCharsLt, this]
      · by_cases hba : b.toNat < a.toNat
        · simp [pyCharsLt, hab, hba] at h1
        · have hac : a.toNat < c.toNat := by omega
          simp [pyCharsLt, hac]
      · by_cases hba : b.toNat < a.toNat
        · simp [pyCharsLt, hab, hba] at h1
        · by_cases hcb : c.toNat < b.toNat
          · simp [pyCharsLt, hbc, hcb] at h2
          · have hac : ¬ a.toNat < c.toNat := by omega
            have hca : ¬ c.toNat < a.toNat := by omega
            simp [pyCharsLt, hab, hba] at h1
            simp [pyCharsLt, hbc, hcb] at h2
            simp [pyCharsLt, hac, hca]
            exact pyCharsLt_trans as bs cs h1 h2

theorem pyCharsLt_conn : ∀ a b, pyCharsLt a b = false → pyCharsLt b a = false → a = b
  | [], [], _, _ => rfl
  | [], _ :: _, h, _ => by cases h
  | _ :: _, [], _, h => by cases h
  | a :: as, b :: bs, h1, h2 => by
    by_cases hab : a.toNat < b.toNat
    · simp [pyCharsLt, hab] at h1
    · by_cases hba : b.toNat < a.toNat
      · simp [pyCharsLt, hba, hab] at h2
      · have hc : a = b := Char.eq_of_val_eq (by
          apply UInt32.eq_of_val_eq
          apply Fin.eq_of_val_eq
          change a.toNat = b.toNat
          omega)
        simp [pyCharsLt, hab, hba] at h1 h2
        rw [hc, pyCharsLt_conn as bs h1 h2]

/-! ## Decimal digits -/

def digitVal (c : Char) : Nat := c.toNat - 48

def digitsToNat (ds : List Char) : Nat :=
  ds.foldl (fun n c => n * 10 + digitVal c) 0

/-- Most-significant-first decimal digits of `n`, with explicit fuel so the
definition is structural and evaluates inside the kernel. -/
def natDigitsAux : Nat → Nat → List Char
  | 0, _ => []
  | fuel + 1, n =>
    if n = 0 then [] else natDigitsAux fuel (n / 10) ++ [Nat.digitChar (n % 10)]

def natToDigits (n : Nat) : List Char :=
  if n = 0 then ['0'] else natDigitsAux (n + 1) n

theorem foldDigits_eq (ds : List Char) :
    ∀ n, ds.foldl (fun n c => n * 10 + digitVal c) n = n * 10 ^ ds.length + digitsToNat ds := by
  induction ds with
  | nil => intro n; simp [digitsToNat]
  | cons c ds ih =>
    intro n
    have hd : digitsToNat (c :: ds) = digitVal c * 10 ^ ds.length + digitsToNat ds := by
      simpa [digitsToNat] using ih (digitVal c)
    simp only [List.foldl_cons, ih (n * 10 + digitVal c), hd, List.length_cons]
    ring

theorem digitsToNat_append (a b : List Char) :
    digitsToNat (a ++ b) = digitsToNat a * 10 ^ b.length + digitsToNat b := by
  simp only [digitsToNat, List.foldl_append]
  exact foldDigits_eq b _

theorem digitVal_digitChar {d : Nat} (h : d < 10) : digitVal (Nat.digitChar d) = d := by
  interval_cases d <;> rfl

theorem isDigit_digitChar {d : Nat} (h : d < 10) : (Nat.digitChar d).isDigit = true := by
  interval_cases d <;> rfl

theorem digitsToNat_natDigitsAux :
    ∀ fuel n, n ≤ fuel → digitsToNat (natDigitsAux fuel n) = n := by
  intro fuel
  induction fuel with
  | zero => intro n h; interval_cases n; rfl
  | succ fuel ih =>
    intro n h
    by_cases h0 : n = 0
    · simp [natDigitsAux, h0, digitsToNat]
    · have hdiv : n / 10 ≤ fuel := by omega
      simp only [natDigitsAux, h0, if_false]
      rw [digitsToNat_append, ih _ hdiv]
      simp [digitsToNat, digitVal_digitChar (Nat.mod_lt n (by omega))]
      omega

theorem digitsToNat_natToDigits (n : Nat) : digitsToNat (natToDigits n) = n := by
  by_cases h0 : n = 0
  · simp [natToDigits, h0]; rfl
  · simp only [natToDigits, h0, if_false]
    exact digitsToNat_natDigitsAux (n + 1) n (by omega)

theorem natDigitsAux_digits :
    ∀ fuel n, ∀ c ∈ natDigitsAux fuel n, c.isDigit = true := by
  intro fuel
  induction fuel with
  | zero => intro n c hc; simp [natDigitsAux] at hc
  | succ fuel ih =>
    intro n c hc
    by_cases h0 : n = 0
    · simp [natDigitsAux, h0] at hc
    · simp only [natDigitsAux, h0, if_false, List.mem_append, List.mem_singleton] at hc
      rcases hc with hc | hc
      · exact ih _ c hc
      · rw [hc]; exact isDigit_digitChar (Nat.mod_lt n (by omega))

theorem natToDigits_digits (n : Nat) : ∀ c ∈ natToDigits n, c.isDigit = true := by
  intro c hc
  by_cases h0 : n = 0
  · simp [natToDigits, h0] at hc; rw [hc]; rfl
  · simp only [natToDigits, h0, if_false] at hc
    exact natDigitsAux_digits _ _ c hc

theorem digitsToNat_replicate_zero (k : Nat) (ds : List Char) :
    digitsToNat (List.replicate k '0' ++ ds) = digitsToNat ds := by
  induction k with
  | zero => simp
  | succ k ih =>
    have : List.replicate (k + 1) '0' ++ ds = '0' :: (List.replicate k '0' ++ ds) := by
      simp [List.replicate_succ]
    rw [this]
    simpa [digitsToNat, digitVal] using ih

/-! ## Python floats as normalised exact decimals -/

/-- Normalisation predicate: the fraction carries no trailing zero.
`(m, e)` denotes the value `m / 10 ^ e`. -/
def pfNorm (p : Int × Nat) : Bool := p.2 == 0 || p.1 % 10 != 0

/-- The model of a Python `float` value as produced by `float(...)` on the
decimal literals this program handles. -/
def PyFloat := { p : Int × Nat // pfNorm p = true }

instance : DecidableEq PyFloat := fun a b =>
  decidable_of_iff (a.val = b.val) Subtype.ext_iff.symm

/-- Strip trailing fractional zeros (what the binary value / shortest-repr
round trip of CPython observably does to a plain decimal literal). -/
def pfStrip : Int → Nat → Int × Nat
  | m, 0 => (m, 0)
  | m, e + 1 => if m % 10 = 0 then pfStrip (m / 10) e else (m, e + 1)

theorem pfNorm_pfStrip : ∀ e m, pfNorm (pfStrip m e) = true := by
  intro e
  induction e with
  | zero => intro m; rfl
  | succ e ih =>
    intro m
    by_cases h : m % 10 = 0
    · simpa [pfStrip, h] using ih (m / 10)
    · simp [pfStrip, h, pfNorm]

theorem pfStrip_of_norm {m : Int} {e : Nat} (h : pfNorm (m, e) = true) :
    pfStrip m e = (m, e) := by
  cases e with
  | zero => rfl
  | succ e =>
    simp [pfNorm] at h
    simp [pfStrip, h]

def mkPyFloat (m : Int) (e : Nat) : PyFloat := ⟨pfStrip m e, pfNorm_pfStrip e m⟩

/-- Optional leading sign of a Python float literal. -/
def stripSign : List Char → Bool × List Char
  | [] => (false, [])
  | c :: cs =>
    if c = '-' then (true, cs) else if c = '+' then (false, cs) else (false, c :: cs)

/-- Split a character list at the first dot, keeping the remainder. -/
def splitAtDot : List Char → List Char × Option (List Char)
  | [] => ([], none)
  | c :: cs =>
    if c = '.' then ([], some cs)
    else
      let r := splitAtDot cs
      (c :: r.1, r.2)

/-- Python's `float(s)` on the plain decimal literals in scope: optional
sign, decimal digits with at most one dot, at least one digit.  Returns
`none` where `float` raises `ValueError`. -/
def parseFloat (s : String) : Option PyFloat :=
  let (neg, cs) := stripSign s.data
  let (intDs, fracOpt) := splitAtDot cs
  let fracDs := fracOpt.getD []
  if intDs.all Char.isDigit && fracDs.all Char.isDigit && !(intDs ++ fracDs).isEmpty then
    let m0 : Nat := digitsToNat (intDs ++ fracDs)
    let mi : Int := if neg then -(m0 : Int) else (m0 : Int)
    some (mkPyFloat mi fracDs.length)
  else
    none

/-- Decimal digits of `n` left-padded with zeros to length at least `k`. -/
def padDigits (n k : Nat) : List Char :=
  let ds := natToDigits n
  List.replicate (k - ds.length) '0' ++ ds

/-- Python's `str()` of a float value: sign, integer digits, a dot, and the
fraction digits (at least one, `"…0"` for integral values). -/
def pyFloatStr (f : PyFloat) : String :=
  let m := f.val.1
  let e := f.val.2
  let sign : List Char := if m < 0 then ['-'] else []
  if e = 0 then ⟨sign ++ natToDigits m.natAbs ++ ['.', '0']⟩
  else
    let ds := padDigits m.natAbs (e + 1)
    ⟨sign ++ ds.take (ds.length - e) ++ '.' :: ds.drop (ds.length - e)⟩

theorem natToDigits_ne_nil (n : Nat) : natToDigits n ≠ [] := by
  by_cases h0 : n = 0
  · simp [natToDigits, h0]
  · simp only [natToDigits, h0, if_false, natDigitsAux]
    simp [h0]

theorem isDigit_ne_minus {c : Char} (h : c.isDigit = true) : c ≠ '-' := by
  intro he; subst he; exact absurd h (by decide)

theorem isDigit_ne_plus {c : Char} (h : c.isDigit = true) : c ≠ '+' := by
  intro he; subst he; exact absurd h (by decide)

theorem isDigit_ne_dot {c : Char} (h : c.isDigit = true) : c ≠ '.' := by
  intro he; subst he; exact absurd h (by decide)

theorem stripSign_digit_head {c : Char} (cs : List Char) (h : c.isDigit = true) :
    stripSign (c :: cs) = (false, c :: cs) := by
  simp [stripSign, isDigit_ne_minus h, isDigit_ne_plus h]

theorem splitAtDot_append (a b : List Char) (h : ∀ c ∈ a, c ≠ '.') :
    splitAtDot (a ++ '.' :: b) = (a, some b) := by
  induction a with
  | nil => simp [splitAtDot]
  | cons c a ih =>
    have hc : c ≠ '.' := h c (by simp)
    have ha : ∀ x ∈ a, x ≠ '.' := fun x hx => h x (by simp [hx])
    simp [splitAtDot, hc, ih ha]

theorem parseFloat_shape (neg : Bool) (intDs fracDs : List Char)
    (hi : ∀ c ∈ intDs, c.isDigit = true) (hf : ∀ c ∈ fracDs, c.isDigit = true)
    (hne : intDs ≠ []) :
    parseFloat ⟨(if neg then ['-'] else []) ++ intDs ++ '.' :: fracDs⟩ =
      some (mkPyFloat
        (if neg then -(digitsToNat (intDs ++ fracDs) : Int) else (digitsToNat (intDs ++ fracDs) : Int))
        fracDs.length) := by
  obtain ⟨d, intDs', rfl⟩ : ∃ d ds, intDs = d :: ds := by
    cases intDs with
    | nil => exact absurd rfl hne
    | cons d ds => exact ⟨d, ds, rfl⟩
  have hd : d.isDigit = true := hi d (by simp)
  have hstrip : stripSign ((if neg then ['-'] else []) ++ (d :: intDs') ++ '.' :: fracDs) =
      (neg, (d :: intDs') ++ '.' :: fracDs) := by
    cases neg with
    | false => simpa using stripSign_digit_head (intDs' ++ '.' :: fracDs) hd
    | true => simp [stripSign]
  have hsplit : splitAtDot ((d :: intDs') ++ '.' :: fracDs) = (d :: intDs', some fracDs) :=
    splitAtDot_append _ _ (fun c hc => isDigit_ne_dot (hi c hc))
  have hia : (d :: intDs').all Char.isDigit = true := by
    rw [List.all_eq_true]; exact hi
  have hfa : fracDs.all Char.isDigit = true := by
    rw [List.all_eq_true]; exact hf
  simp only [parseFloat, String.data]
  rw [hstrip]
  simp only
  rw [hsplit]
  simp [hia, hfa]

/-- Python's repr round trip: `float(str(x)) == x`, in the decimal model. -/
theorem parseFloat_pyFloatStr (f : PyFloat) : parseFloat (pyFloatStr f) = some f := by
  obtain ⟨⟨m, e⟩, hn⟩ := f
  have hsign : ((if m < 0 then ['-'] else []) : List Char) =
      (if decide (m < 0) then ['-'] else []) := by
    by_cases h : m < 0 <;> simp [h]
  cases e with
  | zero =>
    have hshape := parseFloat_shape (decide (m < 0)) (natToDigits m.natAbs) ['0']
      (natToDigits_digits _) (by intro c hc; simp at hc; rw [hc]; rfl)
      (natToDigits_ne_nil _)
    have hds : digitsToNat (natToDigits m.natAbs ++ ['0']) = m.natAbs * 10 := by
      rw [digitsToNat_append, digitsToNat_natToDigits]
      rfl
    have hmi : (if decide (m < 0) then -(digitsToNat (natToDigits m.natAbs ++ ['0']) : Int)
        else (digitsToNat (natToDigits m.natAbs ++ ['0']) : Int)) = m * 10 := by
      rw [hds]
      by_cases h : m < 0
      · rw [if_pos (by simpa using h)]
        omega
      · rw [if_neg (by simpa using h)]
        omega
    have hmk : mkPyFloat (m * 10) 1 = ⟨(m, 0), hn⟩ := by
      apply Subtype.ext
      show pfStrip (m * 10) 1 = (m, 0)
      have h10 : m * 10 % 10 = 0 := by omega
      have hdiv : m * 10 / 10 = m := by omega
      simp [pfStrip, h10, hdiv]
    show parseFloat ⟨(if m < 0 then ['-'] else []) ++ natToDigits m.natAbs ++ ['.', '0']⟩ = _
    rw [hsign]
    have hdot : ('.' :: ['0'] : List Char) = ['.', '0'] := rfl
    rw [← hdot, hshape, hmi]
    simpa using congrArg some hmk
  | succ e' =>
    set e := e' + 1 with he
    have hm10 : m % 10 ≠ 0 := by
      simp [pfNorm] at hn
      omega
    have hds0 : ∀ c ∈ padDigits m.natAbs (e + 1), c.isDigit = true := by
      intro c hc
      simp only [padDigits, List.mem_append] at hc
      rcases hc with hc | hc
      · rw [List.eq_of_mem_replicate hc]; rfl
      · exact natToDigits_digits _ c hc
    set ds := padDigits m.natAbs (e + 1) with hdsdef
    have hlen : e + 1 ≤ ds.length := by
      rw [hdsdef]
      simp only [padDigits, List.length_append, List.length_replicate]
      omega
    have htake : ∀ c ∈ ds.take (ds.length - e), c.isDigit = true :=
      fun c hc => hds0 c (List.take_subset _ _ hc)
    have hdrop : ∀ c ∈ ds.drop (ds.length - e), c.isDigit = true :=
      fun c hc => hds0 c (List.drop_subset _ _ hc)
    have htne : ds.take (ds.length - e) ≠ [] := by
      apply List.ne_nil_of_length_pos
      rw [List.length_take]
      omega
    have hshape := parseFloat_shape (decide (m < 0)) (ds.take (ds.length - e))
      (ds.drop (ds.length - e)) htake hdrop htne
    have hjoin : ds.take (ds.length - e) ++ ds.drop (ds.length - e) = ds :=
      List.take_append_drop _ _
    have hdlen : (ds.drop (ds.length - e)).length = e := by
      rw [List.length_drop]
      omega
    have hval : digitsToNat ds = m.natAbs := by
      rw [hdsdef]
      simp only [padDigits]
      rw [digitsToNat_replicate_zero, digitsToNat_natToDigits]
    have hmi : (if decide (m < 0) then -(digitsToNat (ds.take (ds.length - e) ++ ds.drop (ds.length - e)) : Int)
        else (digitsToNat (ds.take (ds.length - e) ++ ds.drop (ds.length - e)) : Int)) = m := by
      rw [hjoin, hval]
      by_cases h : m < 0
      · rw [if_pos (by simpa using h)]
        omega
      · rw [if_neg (by simpa using h)]
        omega
    have hmk : mkPyFloat m e = ⟨(m, e), hn⟩ := by
      apply Subtype.ext
      exact pfStrip_of_norm hn
    show parseFloat ⟨(if m < 0 then ['-'] else []) ++
        ds.take (ds.length - e) ++ '.' :: ds.drop (ds.length - e)⟩ = _
    rw [hsign, hshape, hmi, hdlen, hmk]

/-! ## Dates (`datetime.strptime(s, "%Y-%m-%d")` and `strftime`) -/

structure PyDate where
  year : Nat
  month : Nat
  day : Nat
deriving DecidableEq, Repr

/-- `datetime.date` ordering: lexicographic on (year, month, day). -/
def dateLeB (a b : PyDate) : Bool :=
  a.year < b.year ||
    (a.year == b.year &&
      (a.month < b.month || (a.month == b.month && a.day ≤ b.day)))

def isLeapYear (y : Nat) : Bool :=
  y % 4 == 0 && (y % 100 != 0 || y % 400 == 0)

def daysInMonth (y mo : Nat) : Nat :=
  if mo = 2 then (if isLeapYear y then 29 else 28)
  else if mo = 4 || mo = 6 || mo = 9 || mo = 11 then 30
  else 31

/-- Split a character list on a separator character. -/
def splitOnChar (sep : Char) : List Char → List (List Char)
  | [] => [[]]
  | c :: cs =>
    match splitOnChar sep cs with
    | [] => [[]]
    | p :: ps => if c = sep then [] :: p :: ps else (c :: p) :: ps

/-- `DateHelper.parse_date(s, "%Y-%m-%d")`, i.e. `datetime.strptime`:
1-4 digit year, 1-2 digit month and day (`strptime` accepts unpadded
components), calendar-validated; `none` where `strptime`/`date` raises
`ValueError`. -/
def parseDate (s : String) : Option PyDate :=
  match splitOnChar '-' s.data with
  | [ys, ms, ds] =>
    if ys.all Char.isDigit && 1 ≤ ys.length && ys.length ≤ 4 &&
        ms.all Char.isDigit && 1 ≤ ms.length && ms.length ≤ 2 &&
        ds.all Char.isDigit && 1 ≤ ds.length && ds.length ≤ 2 then
      let y := digitsToNat ys
      let mo := digitsToNat ms
      let d := digitsToNat ds
      if 1 ≤ y && 1 ≤ mo && mo ≤ 12 && 1 ≤ d && d ≤ daysInMonth y mo then
        some ⟨y, mo, d⟩
      else none
    else none
  | _ => none

/-- `date.strftime("%Y-%m-%d")`: zero-padded `YYYY-MM-DD`. -/
def strftimeDate (d : PyDate) : String :=
  ⟨padDigits d.year 4 ++ '-' :: padDigits d.month 2 ++ '-' :: padDigits d.day 2⟩

/-! ## Python dicts (insertion-ordered association lists) -/

abbrev PyDict (κ ν : Type) := List (κ × ν)

/-- `d[k] = v`: replace in place if the key exists, else append. -/
def pdInsert {κ ν : Type} [DecidableEq κ] (k : κ) (v : ν) : PyDict κ ν → PyDict κ ν
  | [] => [(k, v)]
  | (k', v') :: rest => if k' = k then (k, v) :: rest else (k', v') :: pdInsert k v rest

/-- `d[k]`, as an option (`none` would raise `KeyError`). -/
def pdGet {κ ν : Type} [DecidableEq κ] (k : κ) : PyDict κ ν → Option ν
  | [] => none
  | (k', v) :: rest => if k' = k then some v else pdGet k rest

/-- `d.values()`, in insertion order. -/
def pdValues {κ ν : Type} (d : PyDict κ ν) : List ν := d.map Prod.snd

def pdKeys {κ ν : Type} (d : PyDict κ ν) : List κ := d.map Prod.fst

/-! ## Row values -/

/-- The Python values a row dict can hold in `save_prices_to_csv`:
raw strings, `None` (`DictReader` `restval`), coerced floats, and the
`restkey` list of overflow fields. -/
inductive PyVal where
  | str (s : String)
  | pynone
  | float (f : PyFloat)
  | strlist (l : List String)
deriving DecidableEq

/-- A row as produced by `csv.DictReader`: a dict keyed by field name
(`none` is the `restkey` key for overflow fields). -/
abbrev Row := PyDict (Option String) PyVal

/-- `header = ["Symbol", "Date", "Name", "Currency", "Price"]`
(src/main.py line 249). -/
def header : List String := ["Symbol", "Date", "Name", "Currency", "Price"]

/-- One row of `csv.DictReader`: `dict(zip(fieldnames, row))`, with missing
values filled with `restval=None` and overflow fields gathered under the
`restkey=None` key. -/
def readerRow (fieldnames fields : List String) : Row :=
  let base : Row :=
    (fieldnames.zip fields).foldl (fun d kv => pdInsert (some kv.1) (PyVal.str kv.2) d) []
  if fields.length < fieldnames.length then
    (fieldnames.drop fields.length).foldl (fun d k => pdInsert (some k) PyVal.pynone d) base
  else if fieldnames.length < fields.length then
    pdInsert none (PyVal.strlist (fields.drop fieldnames.length)) base
  else base

/-! ## Load (src/main.py lines 251-277) -/

inductive Warn where
  | headerMismatch
  | skipRow (fields : List String)
deriving DecidableEq

inductive RowStep where
  | keep (r : Row)
  | skipBad
  | dropOld
  | crash
deriving DecidableEq

/-- The body of the row loop (lines 263-272): parse the date, filter by
`earliest_date`, coerce `Price` to float.  `ValueError`/`KeyError` are
caught (`skipBad`); a `TypeError` from `float(None)` or
`parse_date(None)` is uncaught (`crash`); a row older than the retention
cutoff is silently dropped (`dropOld`). -/
def processRow (fieldnames : List String) (earliest_date : PyDate) (fields : List String) :
    RowStep :=
  let row := readerRow fieldnames fields
  match pdGet (some "Date") row with
  | none => .skipBad
  | some (PyVal.str s) =>
    match parseDate s with
    | none => .skipBad
    | some dt =>
      if dateLeB earliest_date dt then
        match pdGet (some "Price") row with
        | none => .skipBad
        | some (PyVal.str ps) =>
          match parseFloat ps with
          | none => .skipBad
          | some f => .keep (pdInsert (some "Price") (PyVal.float f) row)
        | some _ => .crash
      else .dropOld
  | some _ => .crash

def loadRows (fieldnames : List String) (earliest_date : PyDate) :
    List (List String) → Option (List Row × List Warn)
  | [] => some ([], [])
  | fields :: rest =>
    if fields.isEmpty then loadRows fieldnames earliest_date rest
    else
      match processRow fieldnames earliest_date fields with
      | .crash => none
      | .keep r => (loadRows fieldnames earliest_date rest).map (fun p => (r :: p.1, p.2))
      | .skipBad =>
        (loadRows fieldnames earliest_date rest).map (fun p => (p.1, Warn.skipRow fields :: p.2))
      | .dropOld => loadRows fieldnames earliest_date rest

/-- Loading the existing file: a missing file yields the empty dataset; a
header differing from the declared `header` logs a warning but decoding
continues with the file's own header line as `DictReader` fieldnames. -/
def loadFile (file : Option (List (List String))) (earliest_date : PyDate) :
    Option (List Row × List Warn) :=
  match file with
  | none => some ([], [])
  | some [] => some ([], [Warn.headerMismatch])
  | some (hdr :: rest) =>
    (loadRows hdr earliest_date rest).map (fun p =>
      (p.1, (if hdr = header then [] else [Warn.headerMismatch]) ++ p.2))

/-! ## Merge, sort, serialize (src/main.py lines 279-316) -/

/-- A scraped record as supplied by `get_fund_prices` (Symbol/Name/Currency
strings, a date object, a float price). -/
structure NewRecord where
  symbol : String
  date : PyDate
  name : String
  currency : String
  price : PyFloat
deriving DecidableEq

/-- Lines 280-288: re-format a scraped record, `Date` via
`strftime("%Y-%m-%d")`. -/
def formatRecord (f : NewRecord) : Row :=
  [(some "Symbol", PyVal.str f.symbol),
   (some "Date", PyVal.str (strftimeDate f.date)),
   (some "Name", PyVal.str f.name),
   (some "Currency", PyVal.str f.currency),
   (some "Price", PyVal.float f.price)]

/-- `key = (row["Symbol"], row["Date"])`; `none` is a `KeyError`. -/
def rowKey (r : Row) : Option (PyVal × PyVal) :=
  match pdGet (some "Symbol") r, pdGet (some "Date") r with
  | some a, some b => some (a, b)
  | _, _ => none

/-- One merge loop: `merged_data[key] = row` for each row. -/
def insertRows : List Row → PyDict (PyVal × PyVal) Row → Option (PyDict (PyVal × PyVal) Row)
  | [], m => some m
  | r :: rest, m =>
    match rowKey r with
    | none => none
    | some k => insertRows rest (pdInsert k r m)

/-- Lines 290-301: existing data first, then the new records override. -/
def buildMerged (existing_data formatted_fund_prices : List Row) :
    Option (PyDict (PyVal × PyVal) Row) :=
  (insertRows existing_data []).bind (insertRows formatted_fund_prices)

def getStr (k : String) (r : Row) : Option String :=
  match pdGet (some k) r with
  | some (PyVal.str s) => some s
  | _ => none

def sortKeyOk (r : Row) : Bool := (getStr "Symbol" r).isSome && (getStr "Date" r).isSome

/-- `operator.itemgetter("Symbol", "Date")` on a row whose sort keys are
strings. -/
def rowKeyStr (r : Row) : String × String :=
  ((getStr "Symbol" r).getD "", (getStr "Date" r).getD "")

/-- Python `<` on `(str, str)` tuples. -/
def pairLtB (a b : String × String) : Bool :=
  pyStrLt a.1 b.1 || (a.1 == b.1 && pyStrLt a.2 b.2)

/-- The non-strict sort relation used by the stable sort model:
`r` may come before `s` iff the key of `s` is not strictly below the key
of `r`. -/
def rowLe (r s : Row) : Prop := pairLtB (rowKeyStr s) (rowKeyStr r) = false

instance rowLe.decRel : DecidableRel rowLe :=
  fun _ _ => inferInstanceAs (Decidable (_ = false))

/-- Lines 303-305: `final_data = list(merged_data.values())`, sorted by
`(Symbol, Date)`.  Python's `list.sort` is the unique stable sort for the
tuple order, which insertion sort implements; a dataset whose sort keys
are not all strings raises `TypeError` (see the header comment for the
one coarsening). -/
def finalData (merged_data : PyDict (PyVal × PyVal) Row) : Option (List Row) :=
  let vals := pdValues merged_data
  if vals.all sortKeyOk then some (List.insertionSort rowLe vals) else none

/-- `str(...)` as applied by `csv.DictWriter` to a field value. -/
def renderVal : PyVal → String
  | .str s => s
  | .pynone => ""
  | .float f => pyFloatStr f
  | .strlist l =>
    let q := String.singleton (Char.ofNat 39)
    "[" ++ String.intercalate ", " (l.map (fun s => q ++ s ++ q)) ++ "]"

/-- The text fields `DictWriter` emits for one row, in header order,
missing fields filled with `restval=""`. -/
def encRow (r : Row) : List String :=
  header.map (fun h => renderVal ((pdGet (some h) r).getD (PyVal.str "")))

/-- `DictWriter.writerow`: raise `ValueError` on keys outside the declared
fieldnames, fill missing fields with `restval=""`. -/
def writeRowFields (r : Row) : Option (List String) :=
  if r.all (fun p => decide (p.1 ∈ header.map some)) then some (encRow r) else none

/-- The `writer.writerows` loop (fails on the first row holding a key
outside the declared fieldnames, as `DictWriter` raises `ValueError`). -/
def encodeAll : List Row → Option (List (List String))
  | [] => some []
  | r :: rest =>
    match writeRowFields r, encodeAll rest with
    | some fs, some rest' => some (fs :: rest')
    | _, _ => none

/-- Lines 308-311: header plus one encoded line per final row. -/
def serializeRows (final_data : List Row) : Option (List (List String)) :=
  (encodeAll final_data).map (fun ls => header :: ls)

structure RunResult where
  final : List Row
  file : List (List String)
  warns : List Warn
deriving DecidableEq

/-- The whole of `save_prices_to_csv` on an in-memory file state: load,
retention-filter, merge (new wins), sort, serialize.  `none` models an
uncaught exception aborting the run. -/
def save_prices_to_csv (file : Option (List (List String)))
    (fund_prices : List NewRecord) (earliest_date : PyDate) : Option RunResult :=
  match loadFile file earliest_date with
  | none => none
  | some (existing_data, warns) =>
    match buildMerged existing_data (fund_prices.map formatRecord) with
    | none => none
    | some merged_data =>
      match finalData merged_data with
      | none => none
      | some final_data =>
        match serializeRows final_data with
        | none => none
        | some out => some ⟨final_data, out, warns⟩

/-- The file contents after a successful run. -/
def mergeFile (file : Option (List (List String))) (fund_prices : List NewRecord)
    (earliest_date : PyDate) : Option (List (List String)) :=
  (save_prices_to_csv file fund_prices earliest_date).map RunResult.file

/-! ## Persist (src/main.py lines 307-316): `Path(csv_path).open("w")` -/

inductive PersistOutcome where
  | ok
  | openFail
  | writeFail (k : Nat)

/-- The lines on disk after `k` successful line writes into a file opened
with mode `"w"` (which truncates on open). -/
def writeLinesUpTo : Nat → List (List String) → List (List String)
  | _, [] => []
  | 0, _ :: _ => []
  | b + 1, l :: ls => l :: writeLinesUpTo b ls

/-- The persist step writes header and rows straight into the target file.
Result: the file contents afterwards and whether `log_fatal_error` was
called.  `openFail`: `open("w")` itself raised `OSError`, the target is
untouched.  `writeFail k`: the open truncated the target and `k` lines
were flushed before the `OSError`. -/
def persist (prior : Option (List (List String))) (lines : List (List String)) :
    PersistOutcome → Option (List (List String)) × Bool
  | .ok => (some lines, false)
  | .openFail => (prior, true)
  | .writeFail k => (some (writeLinesUpTo k lines), true)

/-! ## Order facts for the sort relation -/

theorem pyStrLt_irrefl (a : String) : pyStrLt a a = false :=
  pyCharsLt_irrefl a.data

theorem pyStrLt_asymm {a b : String} (h : pyStrLt a b = true) : pyStrLt b a = false :=
  pyCharsLt_asymm a.data b.data h

theorem pyStrLt_trans {a b c : String} (h1 : pyStrLt a b = true) (h2 : pyStrLt b c = true) :
    pyStrLt a c = true :=
  pyCharsLt_trans a.data b.data c.data h1 h2

theorem pyStrLt_conn {a b : String} (h1 : pyStrLt a b = false) (h2 : pyStrLt b a = false) :
    a = b := by
  obtain ⟨da⟩ := a
  obtain ⟨db⟩ := b
  exact congrArg String.mk (pyCharsLt_conn da db h1 h2)

theorem pairLtB_irrefl (a : String × String) : pairLtB a a = false := by
  simp [pairLtB, pyStrLt_irrefl]

theorem pairLtB_trans {a b c : String × String}
    (h1 : pairLtB a b = true) (h2 : pairLtB b c = true) : pairLtB a c = true := by
  simp only [pairLtB, Bool.or_eq_true, Bool.and_eq_true, beq_iff_eq] at h1 h2 ⊢
  rcases h1 with h1 | ⟨h1e, h1f⟩ <;> rcases h2 with h2 | ⟨h2e, h2f⟩
  · exact Or.inl (pyStrLt_trans h1 h2)
  · exact Or.inl (h2e ▸ h1)
  · exact Or.inl (h1e ▸ h2)
  · exact Or.inr ⟨h1e.trans h2e, pyStrLt_trans h1f h2f⟩

theorem pairLtB_asymm {a b : String × String} (h : pairLtB a b = true) :
    pairLtB b a = false := by
  simp only [pairLtB, Bool.or_eq_true, Bool.and_eq_true, beq_iff_eq] at h
  simp only [pairLtB, Bool.or_eq_false_iff, Bool.and_eq_false_iff]
  rcases h with h | ⟨he, hf⟩
  · constructor
    · exact pyStrLt_asymm h
    · left
      rw [beq_eq_false_iff_ne]
      intro hbe
      rw [hbe] at h
      rw [pyStrLt_irrefl] at h
      cases h
  · constructor
    · rw [he, pyStrLt_irrefl]
    · right
      exact pyStrLt_asymm hf

theorem pairLtB_conn {a b : String × String}
    (h1 : pairLtB a b = false) (h2 : pairLtB b a = false) : a = b := by
  simp only [pairLtB, Bool.or_eq_false_iff, Bool.and_eq_false_iff] at h1 h2
  obtain ⟨h1a, h1b⟩ := h1
  obtain ⟨h2a, h2b⟩ := h2
  have hfst : a.1 = b.1 := pyStrLt_conn h1a h2a
  have hsnd : a.2 = b.2 := by
    rcases h1b with h | h
    · rw [beq_eq_false_iff_ne] at h; exact absurd hfst h
    · rcases h2b with h' | h'
      · rw [beq_eq_false_iff_ne] at h'; exact absurd hfst.symm h'
      · exact pyStrLt_conn h h'
  exact Prod.ext hfst hsnd

instance rowLe.isTotal : IsTotal Row rowLe := by
  constructor
  intro r s
  cases h : pairLtB (rowKeyStr s) (rowKeyStr r) with
  | false => exact Or.inl h
  | true => exact Or.inr (pairLtB_asymm h)

instance rowLe.isTrans : IsTrans Row rowLe := by
  constructor
  intro r s t h1 h2
  show pairLtB (rowKeyStr t) (rowKeyStr r) = false
  by_contra hcon
  replace hcon := Bool.of_not_eq_false hcon
  cases hab : pairLtB (rowKeyStr r) (rowKeyStr s) with
  | true =>
    have : pairLtB (rowKeyStr t) (rowKeyStr s) = true := pairLtB_trans hcon hab
    rw [h2] at this
    cases this
  | false =>
    have heq : rowKeyStr r = rowKeyStr s := pairLtB_conn hab h1
    rw [heq] at hcon
    rw [h2] at hcon
    cases hcon

/-! ## Dictionary lemmas -/

section PyDictLemmas

variable {κ ν : Type} [DecidableEq κ]

theorem pdGet_pdInsert_self (k : κ) (v : ν) (d : PyDict κ ν) :
    pdGet k (pdInsert k v d) = some v := by
  induction d with
  | nil => simp [pdInsert, pdGet]
  | cons p rest ih =>
    obtain ⟨k', v'⟩ := p
    by_cases h : k' = k
    · simp [pdInsert, pdGet, h]
    · simp [pdInsert, pdGet, h, ih]

theorem pdGet_pdInsert_ne {k k' : κ} (v : ν) (d : PyDict κ ν) (h : k' ≠ k) :
    pdGet k' (pdInsert k v d) = pdGet k' d := by
  induction d with
  | nil => simp [pdInsert, pdGet, h, Ne.symm h]
  | cons p rest ih =>
    obtain ⟨k0, v0⟩ := p
    by_cases h0 : k0 = k
    · subst h0
      simp [pdInsert, pdGet, h, Ne.symm h]
    · by_cases h1 : k0 = k'
      · simp [pdInsert, pdGet, h0, h1, h]
      · simp [pdInsert, pdGet, h0, h1, h, ih]

theorem mem_pdInsert {p : κ × ν} {k : κ} {v : ν} {d : PyDict κ ν} :
    p ∈ pdInsert k v d → p = (k, v) ∨ p ∈ d := by
  induction d with
  | nil => intro h; simp only [pdInsert, List.mem_singleton] at h; exact Or.inl h
  | cons q rest ih =>
    obtain ⟨k0, v0⟩ := q
    intro h
    by_cases h0 : k0 = k
    · simp only [pdInsert, h0, if_true] at h
      rcases List.mem_cons.mp h with h | h
      · exact Or.inl h
      · exact Or.inr (List.mem_cons.mpr (Or.inr h))
    · simp only [pdInsert, h0, if_false] at h
      rcases List.mem_cons.mp h with h | h
      · exact Or.inr (List.mem_cons.mpr (Or.inl h))
      · rcases ih h with h' | h'
        · exact Or.inl h'
        · exact Or.inr (List.mem_cons.mpr (Or.inr h'))

theorem pdKeys_pdInsert (k : κ) (v : ν) (d : PyDict κ ν) :
    pdKeys (pdInsert k v d) = if k ∈ pdKeys d then pdKeys d else pdKeys d ++ [k] := by
  induction d with
  | nil => simp [pdInsert, pdKeys]
  | cons p rest ih =>
    obtain ⟨k0, v0⟩ := p
    by_cases h0 : k0 = k
    · simp [pdInsert, pdKeys, h0]
    · simp only [pdInsert, h0, if_false, pdKeys, List.map_cons] at ih ⊢
      rw [ih]
      by_cases hmem : k ∈ List.map Prod.fst rest
      · simp [hmem, Ne.symm h0]
      · simp [hmem, Ne.symm h0]

theorem pdKeys_nodup_pdInsert {k : κ} {v : ν} {d : PyDict κ ν}
    (h : (pdKeys d).Nodup) : (pdKeys (pdInsert k v d)).Nodup := by
  rw [pdKeys_pdInsert]
  by_cases hmem : k ∈ pdKeys d
  · simpa [hmem] using h
  · simp only [hmem, if_false]
    rw [List.nodup_append]
    refine ⟨h, List.nodup_singleton _, ?_⟩
    intro x hx hx'
    rw [List.mem_singleton] at hx'
    exact hmem (hx' ▸ hx)

theorem pdInsert_fresh {k : κ} (v : ν) {d : PyDict κ ν} (h : k ∉ pdKeys d) :
    pdInsert k v d = d ++ [(k, v)] := by
  induction d with
  | nil => rfl
  | cons p rest ih =>
    obtain ⟨k0, v0⟩ := p
    simp only [pdKeys, List.map_cons, List.mem_cons] at h
    push_neg at h
    have hne : ¬ k0 = k := fun he => h.1 he.symm
    simp only [pdInsert]
    rw [if_neg hne, ih h.2]
    rfl

theorem pdGet_eq_none_of_not_mem {k : κ} {d : PyDict κ ν} (h : k ∉ pdKeys d) :
    pdGet k d = none := by
  induction d with
  | nil => rfl
  | cons p rest ih =>
    obtain ⟨k0, v0⟩ := p
    simp only [pdKeys, List.map_cons, List.mem_cons] at h
    push_neg at h
    have hne : ¬ k0 = k := fun he => h.1 he.symm
    simp only [pdGet]
    rw [if_neg hne]
    exact ih h.2

end PyDictLemmas

theorem pdValues_append {κ ν : Type} (a b : PyDict κ ν) :
    pdValues (a ++ b) = pdValues a ++ pdValues b := by
  simp [pdValues]

/-! ## Load invariants -/

/-- The kept row's `Date` value is a string that parses to a date at or
after the retention cutoff. -/
def rowOkDate (earliest : PyDate) (r : Row) : Prop :=
  ∃ s d, pdGet (some "Date") r = some (PyVal.str s) ∧ parseDate s = some d ∧
    dateLeB earliest d = true

/-- The kept row's `Price` value has been coerced to a float. -/
def rowOkPrice (r : Row) : Prop := ∃ f, pdGet (some "Price") r = some (PyVal.float f)

theorem processRow_keep_ok {fieldnames : List String} {earliest : PyDate}
    {fields : List String} {r : Row}
    (h : processRow fieldnames earliest fields = RowStep.keep r) :
    rowOkDate earliest r ∧ rowOkPrice r := by
  simp only [processRow] at h
  split at h
  · cases h
  case h_2 s hD =>
    split at h
    · cases h
    case h_2 dt hP =>
      split at h
      · split at h
        · cases h
        case h_2 ps hPr =>
          split at h
          · cases h
          case h_2 fl hF =>
            cases h
            constructor
            · refine ⟨s, dt, ?_, hP, ?_⟩
              · rw [pdGet_pdInsert_ne _ _ (by decide)]
                exact hD
              · assumption
            · exact ⟨fl, pdGet_pdInsert_self _ _ _⟩
        · cases h
      · cases h
  · cases h

theorem processRow_dropOld_iff (fieldnames : List String) (earliest : PyDate)
    (fields : List String) :
    processRow fieldnames earliest fields = RowStep.dropOld ↔
      ∃ s d, pdGet (some "Date") (readerRow fieldnames fields) = some (PyVal.str s) ∧
        parseDate s = some d ∧ dateLeB earliest d = false := by
  constructor
  · intro h
    simp only [processRow] at h
    split at h
    · cases h
    case h_2 s hD =>
      split at h
      · cases h
      case h_2 dt hP =>
        split at h
        · split at h
          · cases h
          · split at h
            · cases h
            · cases h
          · cases h
        · exact ⟨s, dt, hD, hP, by simp_all⟩
    · cases h
  · rintro ⟨s, d, hD, hP, hlt⟩
    simp only [processRow]
    rw [hD]
    simp only [hP]
    rw [hlt]
    simp

theorem loadRows_ok {fieldnames : List String} {earliest : PyDate}
    {lines : List (List String)} {rows : List Row} {ws : List Warn}
    (h : loadRows fieldnames earliest lines = some (rows, ws)) :
    ∀ r ∈ rows, rowOkDate earliest r ∧ rowOkPrice r := by
  induction lines generalizing rows ws with
  | nil =>
    simp only [loadRows] at h
    cases h
    intro r hr
    cases hr
  | cons fields rest ih =>
    simp only [loadRows] at h
    by_cases hemp : fields.isEmpty
    · rw [if_pos hemp] at h
      exact ih h
    · rw [if_neg hemp] at h
      split at h
      · cases h
      · rename_i r0 hpr
        rw [Option.map_eq_some'] at h
        obtain ⟨⟨rows', ws'⟩, hrec, heq⟩ := h
        cases heq
        intro r hr
        rcases List.mem_cons.mp hr with hr | hr
        · exact hr ▸ processRow_keep_ok hpr
        · exact ih hrec r hr
      · rw [Option.map_eq_some'] at h
        obtain ⟨⟨rows', ws'⟩, hrec, heq⟩ := h
        cases heq
        exact ih hrec
      · exact ih h

theorem loadFile_ok {file : Option (List (List String))} {earliest : PyDate}
    {rows : List Row} {ws : List Warn}
    (h : loadFile file earliest = some (rows, ws)) :
    ∀ r ∈ rows, rowOkDate earliest r ∧ rowOkPrice r := by
  match file with
  | none =>
    simp only [loadFile] at h
    cases h
    intro r hr
    cases hr
  | some [] =>
    simp only [loadFile] at h
    cases h
    intro r hr
    cases hr
  | some (hdr :: rest) =>
    simp only [loadFile, Option.map_eq_some'] at h
    obtain ⟨⟨rows', ws'⟩, hrec, heq⟩ := h
    cases heq
    exact loadRows_ok hrec

/-! ## Merge invariants -/

/-- The last row of the sequence whose `(Symbol, Date)` key equals `K`. -/
def lastWithKey (K : PyVal × PyVal) : List Row → Option Row
  | [] => none
  | r :: rest =>
    match lastWithKey K rest with
    | some x => some x
    | none => if rowKey r = some K then some r else none

theorem insertRows_get {rows : List Row} {m m' : PyDict (PyVal × PyVal) Row}
    {K : PyVal × PyVal} (h : insertRows rows m = some m') :
    pdGet K m' = match lastWithKey K rows with
      | some x => some x
      | none => pdGet K m := by
  induction rows generalizing m with
  | nil =>
    simp only [insertRows] at h
    cases h
    rfl
  | cons r rest ih =>
    simp only [insertRows] at h
    split at h
    · cases h
    · rename_i k hk
      rw [ih h]
      simp only [lastWithKey]
      cases hlast : lastWithKey K rest with
      | some x => simp
      | none =>
        simp only []
        rw [hk]
        by_cases hkK : k = K
        · subst hkK
          simp only [if_pos rfl]
          exact pdGet_pdInsert_self _ _ _
        · rw [if_neg (by simpa using hkK)]
          exact pdGet_pdInsert_ne _ _ (Ne.symm hkK)

/-- Every entry of the merged dict is stored under the key computed from
its own row. -/
def mergedKeyInv (m : PyDict (PyVal × PyVal) Row) : Prop :=
  ∀ p ∈ m, rowKey p.2 = some p.1

theorem insertRows_keyInv {rows : List Row} {m m' : PyDict (PyVal × PyVal) Row}
    (h : insertRows rows m = some m') (hm : mergedKeyInv m) : mergedKeyInv m' := by
  induction rows generalizing m with
  | nil =>
    simp only [insertRows] at h
    cases h
    exact hm
  | cons r rest ih =>
    simp only [insertRows] at h
    split at h
    · cases h
    · rename_i k hk
      refine ih h ?_
      intro p hp
      rcases mem_pdInsert hp with hp' | hp'
      · rw [hp']
        exact hk
      · exact hm p hp'

theorem insertRows_nodupKeys {rows : List Row} {m m' : PyDict (PyVal × PyVal) Row}
    (h : insertRows rows m = some m') (hm : (pdKeys m).Nodup) : (pdKeys m').Nodup := by
  induction rows generalizing m with
  | nil =>
    simp only [insertRows] at h
    cases h
    exact hm
  | cons r rest ih =>
    simp only [insertRows] at h
    split at h
    · cases h
    · exact ih h (pdKeys_nodup_pdInsert hm)

theorem insertRows_provenance {rows : List Row} {m m' : PyDict (PyVal × PyVal) Row}
    (h : insertRows rows m = some m') : ∀ p ∈ m', p ∈ m ∨ p.2 ∈ rows := by
  induction rows generalizing m with
  | nil =>
    simp only [insertRows] at h
    cases h
    intro p hp
    exact Or.inl hp
  | cons r rest ih =>
    simp only [insertRows] at h
    split at h
    · cases h
    · rename_i k hk
      intro p hp
      rcases ih h p hp with hp' | hp'
      · rcases mem_pdInsert hp' with hp'' | hp''
        · exact Or.inr (List.mem_cons.mpr (Or.inl (by rw [hp''])))
        · exact Or.inl hp''
      · exact Or.inr (List.mem_cons.mpr (Or.inr hp'))

theorem buildMerged_get {ex news : List Row} {m : PyDict (PyVal × PyVal) Row}
    {K : PyVal × PyVal} (h : buildMerged ex news = some m) :
    pdGet K m = match lastWithKey K news with
      | some x => some x
      | none => lastWithKey K ex := by
  simp only [buildMerged, Option.bind_eq_some] at h
  obtain ⟨m1, h1, h2⟩ := h
  rw [insertRows_get h2]
  cases hlast : lastWithKey K news with
  | some x => rfl
  | none =>
    simp only []
    rw [insertRows_get h1]
    cases hex : lastWithKey K ex with
    | some x => rfl
    | none => rfl

theorem buildMerged_keyInv {ex news : List Row} {m : PyDict (PyVal × PyVal) Row}
    (h : buildMerged ex news = some m) : mergedKeyInv m := by
  simp only [buildMerged, Option.bind_eq_some] at h
  obtain ⟨m1, h1, h2⟩ := h
  exact insertRows_keyInv h2 (insertRows_keyInv h1 (by intro p hp; cases hp))

theorem buildMerged_nodupKeys {ex news : List Row} {m : PyDict (PyVal × PyVal) Row}
    (h : buildMerged ex news = some m) : (pdKeys m).Nodup := by
  simp only [buildMerged, Option.bind_eq_some] at h
  obtain ⟨m1, h1, h2⟩ := h
  exact insertRows_nodupKeys h2 (insertRows_nodupKeys h1 List.nodup_nil)

theorem buildMerged_provenance {ex news : List Row} {m : PyDict (PyVal × PyVal) Row}
    (h : buildMerged ex news = some m) : ∀ p ∈ m, p.2 ∈ ex ∨ p.2 ∈ news := by
  simp only [buildMerged, Option.bind_eq_some] at h
  obtain ⟨m1, h1, h2⟩ := h
  intro p hp
  rcases insertRows_provenance h2 p hp with hp' | hp'
  · rcases insertRows_provenance h1 p hp' with hp'' | hp''
    · cases hp''
    · exact Or.inl hp''
  · exact Or.inr hp'

theorem pdValues_filter_eq_nil {m : PyDict (PyVal × PyVal) Row}
    (hinv : mergedKeyInv m) {K : PyVal × PyVal} (hK : K ∉ pdKeys m) :
    (pdValues m).filter (fun x => decide (rowKey x = some K)) = [] := by
  induction m with
  | nil => rfl
  | cons p rest ih =>
    obtain ⟨k, v⟩ := p
    simp only [pdKeys, List.map_cons, List.mem_cons] at hK
    push_neg at hK
    have hv : rowKey v = some k := hinv (k, v) (List.mem_cons_self _ _)
    have hne : decide (rowKey v = some K) = false := by
      simp [hv]
      exact fun he => hK.1 he.symm
    simp only [pdValues, List.map_cons, List.filter_cons, hne]
    exact ih (fun q hq => hinv q (List.mem_cons_of_mem _ hq)) hK.2

theorem pdValues_filter_eq_singleton {m : PyDict (PyVal × PyVal) Row}
    (hinv : mergedKeyInv m) (hnd : (pdKeys m).Nodup) {K : PyVal × PyVal} {r : Row}
    (hget : pdGet K m = some r) :
    (pdValues m).filter (fun x => decide (rowKey x = some K)) = [r] := by
  induction m with
  | nil => cases hget
  | cons p rest ih =>
    obtain ⟨k, v⟩ := p
    have hv : rowKey v = some k := hinv (k, v) (List.mem_cons_self _ _)
    simp only [pdKeys, List.map_cons, List.nodup_cons] at hnd
    by_cases hk : k = K
    · subst hk
      simp only [pdGet, if_pos rfl] at hget
      cases hget
      have hcons : (pdValues ((k, r) :: rest)).filter (fun x => decide (rowKey x = some k)) =
          r :: (pdValues rest).filter (fun x => decide (rowKey x = some k)) := by
        simp [pdValues, hv]
      rw [hcons, pdValues_filter_eq_nil (fun q hq => hinv q (List.mem_cons_of_mem _ hq)) hnd.1]
    · simp only [pdGet, if_neg hk] at hget
      have hF : decide (rowKey v = some K) = false := by
        rw [hv]
        simp only [decide_eq_false_iff_not]
        intro he
        injection he with he'
        exact hk he'
      have hcons : (pdValues ((k, v) :: rest)).filter (fun x => decide (rowKey x = some K)) =
          (pdValues rest).filter (fun x => decide (rowKey x = some K)) := by
        simp only [pdValues, List.map_cons, List.filter_cons, hF]
        simp
      rw [hcons]
      exact ih (fun q hq => hinv q (List.mem_cons_of_mem _ hq)) hnd.2 hget

/-! ## Pipeline inversion -/

theorem save_inv {file : Option (List (List String))} {news : List NewRecord}
    {cut : PyDate} {res : RunResult}
    (h : save_prices_to_csv file news cut = some res) :
    ∃ ex ws m, loadFile file cut = some (ex, ws) ∧
      buildMerged ex (news.map formatRecord) = some m ∧
      finalData m = some res.final ∧
      serializeRows res.final = some res.file ∧
      res.warns = ws := by
  unfold save_prices_to_csv at h
  split at h
  · cases h
  · rename_i ex ws hload
    split at h
    · cases h
    · rename_i m hm
      split at h
      · cases h
      · rename_i fin hfin
        split at h
        · cases h
        · rename_i out hout
          cases h
          exact ⟨ex, ws, m, hload, hm, hfin, hout, rfl⟩

theorem finalData_inv {m : PyDict (PyVal × PyVal) Row} {fin : List Row}
    (h : finalData m = some fin) :
    fin = List.insertionSort rowLe (pdValues m) ∧
      ∀ r ∈ pdValues m, sortKeyOk r = true := by
  simp only [finalData] at h
  split at h
  · rename_i hall
    cases h
    exact ⟨rfl, List.all_eq_true.mp hall⟩
  · cases h

theorem finalData_sorted {m : PyDict (PyVal × PyVal) Row} {fin : List Row}
    (h : finalData m = some fin) : List.Sorted rowLe fin := by
  rw [(finalData_inv h).1]
  exact List.sorted_insertionSort rowLe (pdValues m)

theorem finalData_perm {m : PyDict (PyVal × PyVal) Row} {fin : List Row}
    (h : finalData m = some fin) : fin.Perm (pdValues m) := by
  rw [(finalData_inv h).1]
  exact List.perm_insertionSort rowLe (pdValues m)

theorem finalData_sortKeyOk {m : PyDict (PyVal × PyVal) Row} {fin : List Row}
    (h : finalData m = some fin) : ∀ r ∈ fin, sortKeyOk r = true := by
  intro r hr
  exact (finalData_inv h).2 r ((finalData_perm h).mem_iff.mp hr)

theorem writeRowFields_some_iff {r : Row} {fs : List String} :
    writeRowFields r = some fs ↔
      r.all (fun p => decide (p.1 ∈ header.map some)) = true ∧ fs = encRow r := by
  unfold writeRowFields
  constructor
  · intro h
    split at h
    · rename_i hc
      cases h
      exact ⟨hc, rfl⟩
    · cases h
  · rintro ⟨hc, rfl⟩
    rw [if_pos hc]

theorem encodeAll_inv {rows : List Row} {ls : List (List String)}
    (h : encodeAll rows = some ls) :
    ls = rows.map encRow ∧ ∀ r ∈ rows, writeRowFields r = some (encRow r) := by
  induction rows generalizing ls with
  | nil =>
    simp only [encodeAll] at h
    cases h
    exact ⟨rfl, by intro r hr; cases hr⟩
  | cons r rest ih =>
    simp only [encodeAll] at h
    split at h
    · rename_i fs rest' hw hrec
      cases h
      obtain ⟨hmap, hall⟩ := ih hrec
      obtain ⟨_, hfs⟩ := writeRowFields_some_iff.mp hw
      subst hfs
      refine ⟨by rw [hmap, List.map_cons], ?_⟩
      intro x hx
      rcases List.mem_cons.mp hx with hx | hx
      · subst hx
        exact hw
      · exact hall x hx
    · cases h

theorem serializeRows_inv {rows : List Row} {out : List (List String)}
    (h : serializeRows rows = some out) :
    out = header :: rows.map encRow ∧
      ∀ r ∈ rows, writeRowFields r = some (encRow r) := by
  simp only [serializeRows, Option.map_eq_some'] at h
  obtain ⟨ls, hENC, rfl⟩ := h
  obtain ⟨hmap, hall⟩ := encodeAll_inv hENC
  exact ⟨by rw [hmap], hall⟩

theorem getStr_eq_some {k : String} {r : Row} {s : String} :
    getStr k r = some s ↔ pdGet (some k) r = some (PyVal.str s) := by
  unfold getStr
  constructor
  · intro h
    split at h
    · rename_i s' hg
      cases h
      exact hg
    · cases h
  · intro h
    rw [h]

theorem sortKeyOk_parts {r : Row} (h : sortKeyOk r = true) :
    pdGet (some "Symbol") r = some (PyVal.str (rowKeyStr r).1) ∧
      pdGet (some "Date") r = some (PyVal.str (rowKeyStr r).2) := by
  simp only [sortKeyOk, Bool.and_eq_true, Option.isSome_iff_exists] at h
  obtain ⟨⟨sy, hsy⟩, ⟨sd, hsd⟩⟩ := h
  have h1 := getStr_eq_some.mp hsy
  have h2 := getStr_eq_some.mp hsd
  constructor
  · rw [show (rowKeyStr r).1 = sy from by simp [rowKeyStr, hsy]]
    exact h1
  · rw [show (rowKeyStr r).2 = sd from by simp [rowKeyStr, hsd]]
    exact h2

theorem rowKey_of_sortKeyOk {r : Row} (h : sortKeyOk r = true) :
    rowKey r = some (PyVal.str (rowKeyStr r).1, PyVal.str (rowKeyStr r).2) := by
  obtain ⟨h1, h2⟩ := sortKeyOk_parts h
  unfold rowKey
  rw [h1, h2]

/-! ## Facts about the final dataset of a successful run -/

theorem final_rowKey_isSome {file : Option (List (List String))} {news : List NewRecord}
    {cut : PyDate} {res : RunResult} (h : save_prices_to_csv file news cut = some res) :
    ∀ r ∈ res.final, ∃ k, rowKey r = some k := by
  obtain ⟨ex, ws, m, hload, hm, hfin, hout, hws⟩ := save_inv h
  intro r hr
  have hr' : r ∈ pdValues m := (finalData_perm hfin).mem_iff.mp hr
  obtain ⟨p, hp, hp2⟩ := List.mem_map.mp hr'
  exact ⟨p.1, hp2 ▸ buildMerged_keyInv hm p hp⟩

theorem final_rowKey_nodup {file : Option (List (List String))} {news : List NewRecord}
    {cut : PyDate} {res : RunResult} (h : save_prices_to_csv file news cut = some res) :
    (res.final.map rowKey).Nodup := by
  obtain ⟨ex, ws, m, hload, hm, hfin, hout, hws⟩ := save_inv h
  have hinv := buildMerged_keyInv hm
  have hnd := buildMerged_nodupKeys hm
  have hmap : (pdValues m).map rowKey = (pdKeys m).map some := by
    simp only [pdValues, pdKeys, List.map_map]
    exact List.map_congr_left (fun p hp => hinv p hp)
  have hvnd : ((pdValues m).map rowKey).Nodup := by
    rw [hmap]
    exact hnd.map (Option.some_injective _)
  exact (((finalData_perm hfin).map rowKey).nodup_iff).mpr hvnd

theorem final_rowOkPrice {file : Option (List (List String))} {news : List NewRecord}
    {cut : PyDate} {res : RunResult} (h : save_prices_to_csv file news cut = some res) :
    ∀ r ∈ res.final, rowOkPrice r := by
  obtain ⟨ex, ws, m, hload, hm, hfin, hout, hws⟩ := save_inv h
  intro r hr
  have hr' : r ∈ pdValues m := (finalData_perm hfin).mem_iff.mp hr
  obtain ⟨p, hp, hp2⟩ := List.mem_map.mp hr'
  rcases buildMerged_provenance hm p hp with hex | hnew
  · exact (loadFile_ok hload p.2 hex).2.imp (fun f hf => hp2 ▸ hf)
  · obtain ⟨f, _, hf⟩ := List.mem_map.mp hnew
    refine ⟨f.price, ?_⟩
    rw [← hp2, ← hf]
    rfl

theorem final_rowOkDate_empty_news {file : Option (List (List String))}
    {cut : PyDate} {res : RunResult} (h : save_prices_to_csv file [] cut = some res) :
    ∀ r ∈ res.final, rowOkDate cut r := by
  obtain ⟨ex, ws, m, hload, hm, hfin, hout, hws⟩ := save_inv h
  intro r hr
  have hr' : r ∈ pdValues m := (finalData_perm hfin).mem_iff.mp hr
  obtain ⟨p, hp, hp2⟩ := List.mem_map.mp hr'
  rcases buildMerged_provenance hm p hp with hex | hnew
  · exact hp2 ▸ (loadFile_ok hload p.2 hex).1
  · simp at hnew

/-! ## Concrete fixtures for witnesses and counterexamples -/

def exampleCut : PyDate := ⟨2025, 1, 1⟩

def exampleFile : List (List String) :=
  [header,
   ["AAA", "2025-06-01", "Fund A", "AUD", "1.00"],
   ["BBB", "2024-06-01", "Fund B", "AUD", "2.00"],
   ["CCC", "2025-01-01", "Fund C", "AUD", "3.00"]]

def exampleNew : NewRecord := ⟨"AAA", ⟨2025, 6, 1⟩, "Fund A", "AUD", mkPyFloat 105 2⟩

/-! ## Claim C1: replacement wins, whole-record -/

/-- The `(Symbol, Date)` key under which a formatted new record is merged. -/
def newRecordKey (f : NewRecord) : PyVal × PyVal :=
  (PyVal.str f.symbol, PyVal.str (strftimeDate f.date))

theorem rowKey_formatRecord (f : NewRecord) :
    rowKey (formatRecord f) = some (newRecordKey f) := rfl

/-- Claim C1: for any existing file contents and any new record `f` that is
the last of its CompositeKey in the batch, a successful run's post-merge
dataset contains exactly the formatted new record under that key — every
field comes wholly from the new record, and the same holds when no
existing row has the key (insert path). -/
theorem merge_replacement_wins {file : Option (List (List String))}
    {news : List NewRecord} {cut : PyDate} {res : RunResult} {f : NewRecord}
    (h : save_prices_to_csv file news cut = some res)
    (hlast : lastWithKey (newRecordKey f) (news.map formatRecord) = some (formatRecord f)) :
    res.final.filter (fun r => decide (rowKey r = some (newRecordKey f))) =
      [formatRecord f] := by
  obtain ⟨ex, ws, m, hload, hm, hfin, hout, hws⟩ := save_inv h
  have hget : pdGet (newRecordKey f) m = some (formatRecord f) := by
    rw [buildMerged_get hm, hlast]
  have hfv := pdValues_filter_eq_singleton (buildMerged_keyInv hm)
    (buildMerged_nodupKeys hm) hget
  have hperm := (finalData_perm hfin).filter
    (fun r => decide (rowKey r = some (newRecordKey f)))
  rw [hfv] at hperm
  exact List.perm_singleton.mp hperm

/-- Witness for C1: the existing file holds `AAA,2025-06-01,…,1.00`; the
new record has the same key with price `1.05`; the merged dataset holds
exactly the new record under that key. -/
theorem merge_replacement_wins_witness :
    ∃ res, save_prices_to_csv (some exampleFile) [exampleNew] exampleCut = some res ∧
      res.final.filter (fun r => decide (rowKey r = some (newRecordKey exampleNew))) =
        [formatRecord exampleNew] := by
  cases hres : save_prices_to_csv (some exampleFile) [exampleNew] exampleCut with
  | none => exact absurd hres (by decide)
  | some res => exact ⟨res, rfl, merge_replacement_wins hres (by decide)⟩

/-! ## Claim C2: key uniqueness after merge -/

/-- Claim C2: in any successful run, no two rows of the post-merge dataset
share a CompositeKey (and every row has one). -/
theorem merge_key_uniqueness {file : Option (List (List String))}
    {news : List NewRecord} {cut : PyDate} {res : RunResult}
    (h : save_prices_to_csv file news cut = some res) :
    (∀ r ∈ res.final, ∃ k, rowKey r = some k) ∧
      res.final.Pairwise (fun r s => rowKey r ≠ rowKey s) := by
  refine ⟨final_rowKey_isSome h, ?_⟩
  have hnd := final_rowKey_nodup h
  exact (List.pairwise_map.mp hnd)

/-- Witness for C2 at a concrete run mixing existing rows and a
key-colliding new record. -/
theorem merge_key_uniqueness_witness :
    ∃ res, save_prices_to_csv (some exampleFile) [exampleNew] exampleCut = some res ∧
      ((∀ r ∈ res.final, ∃ k, rowKey r = some k) ∧
        res.final.Pairwise (fun r s => rowKey r ≠ rowKey s)) := by
  cases hres : save_prices_to_csv (some exampleFile) [exampleNew] exampleCut with
  | none => exact absurd hres (by decide)
  | some res => exact ⟨res, rfl, merge_key_uniqueness hres⟩

/-! ## Claim C10: duplicate keys, last writer wins in both layers -/

/-- Claim C10: in the merged mapping, a key maps to the last new record of
that key when one exists, else to the last existing row of that key; and
whatever the mapping holds for a key is exactly what the post-merge
dataset holds for it. -/
theorem merge_duplicate_keys_last_wins {file : Option (List (List String))}
    {news : List NewRecord} {cut : PyDate} {res : RunResult}
    {ex : List Row} {ws : List Warn} {m : PyDict (PyVal × PyVal) Row}
    (K : PyVal × PyVal)
    (hload : loadFile file cut = some (ex, ws))
    (hm : buildMerged ex (news.map formatRecord) = some m)
    (hsave : save_prices_to_csv file news cut = some res) :
    (pdGet K m = match lastWithKey K (news.map formatRecord) with
      | some r => some r
      | none => lastWithKey K ex) ∧
    (∀ r, pdGet K m = some r →
      res.final.filter (fun x => decide (rowKey x = some K)) = [r]) := by
  refine ⟨buildMerged_get hm, ?_⟩
  intro r hget
  obtain ⟨ex', ws', m', hload', hm', hfin, hout, hws⟩ := save_inv hsave
  have hex : ex' = ex ∧ ws' = ws := by
    rw [hload] at hload'
    exact ⟨congrArg Prod.fst (Option.some.inj hload').symm,
      congrArg Prod.snd (Option.some.inj hload').symm⟩
  rw [hex.1, hm] at hm'
  cases Option.some.inj hm'
  have hfv := pdValues_filter_eq_singleton (buildMerged_keyInv hm)
    (buildMerged_nodupKeys hm) hget
  have hperm := (finalData_perm hfin).filter (fun x => decide (rowKey x = some K))
  rw [hfv] at hperm
  exact List.perm_singleton.mp hperm

def dupFile : List (List String) :=
  [header,
   ["AAA", "2025-06-01", "Fund A", "AUD", "1.00"],
   ["AAA", "2025-06-01", "Fund A again", "AUD", "1.50"]]

def dupNew1 : NewRecord := ⟨"BBB", ⟨2025, 6, 2⟩, "Fund B", "AUD", mkPyFloat 2 0⟩

def dupNew2 : NewRecord := ⟨"BBB", ⟨2025, 6, 2⟩, "Fund B again", "AUD", mkPyFloat 25 1⟩

/-- Witness for C10: the existing file repeats key `(AAA, 2025-06-01)` and
the batch repeats key `(BBB, 2025-06-02)`; in each layer the later entry
wins. -/
theorem merge_duplicate_keys_last_wins_witness :
    ∃ ex ws m res,
      loadFile (some dupFile) exampleCut = some (ex, ws) ∧
      buildMerged ex ([dupNew1, dupNew2].map formatRecord) = some m ∧
      save_prices_to_csv (some dupFile) [dupNew1, dupNew2] exampleCut = some res ∧
      pdGet (newRecordKey dupNew2) m = some (formatRecord dupNew2) ∧
      res.final.filter
        (fun x => decide (rowKey x = some (newRecordKey dupNew2))) =
        [formatRecord dupNew2] := by
  cases hres : save_prices_to_csv (some dupFile) [dupNew1, dupNew2] exampleCut with
  | none => exact absurd hres (by decide)
  | some res =>
    obtain ⟨ex, ws, m, hload, hm, hfin, hout, hws⟩ := save_inv hres
    have hparts := merge_duplicate_keys_last_wins (newRecordKey dupNew2)
      hload hm hres
    have hlast : lastWithKey (newRecordKey dupNew2)
        ([dupNew1, dupNew2].map formatRecord) = some (formatRecord dupNew2) := by
      decide
    have hget : pdGet (newRecordKey dupNew2) m = some (formatRecord dupNew2) := by
      rw [hparts.1, hlast]
    exact ⟨ex, ws, m, res, hload, hm, rfl, hget, hparts.2 _ hget⟩

/-! ## Claim C6: output order -/

def dateLtB (a b : PyDate) : Bool := dateLeB a b && !(dateLeB b a)

/-- The order the claim derives from the declared key ranks of
`csv_header_config` (src/config_schemas.py lines 106-134): `Date` has
`sort` rank 1 and `Symbol` rank 2, so the key-rank-ordered tuple is
(Date chronologically, then Symbol lexicographically). -/
def keyRankLtB (r s : Row) : Bool :=
  let dr := ((getStr "Date" r).bind parseDate).getD ⟨0, 0, 0⟩
  let ds := ((getStr "Date" s).bind parseDate).getD ⟨0, 0, 0⟩
  dateLtB dr ds ||
    (dr == ds && pyStrLt ((getStr "Symbol" r).getD "") ((getStr "Symbol" s).getD ""))

/-- Every adjacent pair of rows is strictly increasing in the key-rank
order — the property the claim asserts of the output. -/
def chainKeyRank : List Row → Bool
  | [] => true
  | [_] => true
  | r :: s :: rest => keyRankLtB r s && chainKeyRank (s :: rest)

def c6NewB : NewRecord := ⟨"B", ⟨2025, 1, 1⟩, "Fund B", "AUD", mkPyFloat 1 0⟩

def c6NewA : NewRecord := ⟨"A", ⟨2025, 1, 2⟩, "Fund A", "AUD", mkPyFloat 2 0⟩

/-- Counterexample to C6: records `(B, 2025-01-01)` and `(A, 2025-01-02)`
come out ordered `A` first (the code sorts by `itemgetter("Symbol",
"Date")`), so the earlier output row does not precede the later one in
the declared key-rank order (Date rank 1, Symbol rank 2). -/
theorem sort_keyRank_counterexample :
    (save_prices_to_csv none [c6NewB, c6NewA] exampleCut).map
      (fun res => chainKeyRank res.final) = some false := by decide

/-- Claim C6 (amended): the output is strictly increasing by the
`(Symbol, Date)` string tuple — `Symbol` is the most significant sort
key, despite `csv_header_config` ranking `Date` first (those declared
sort ranks are never read by `save_prices_to_csv`). -/
theorem sorted_by_symbol_then_date {file : Option (List (List String))}
    {news : List NewRecord} {cut : PyDate} {res : RunResult}
    (h : save_prices_to_csv file news cut = some res) :
    res.final.Pairwise (fun r s => pairLtB (rowKeyStr r) (rowKeyStr s) = true) := by
  obtain ⟨ex, ws, m, hload, hm, hfin, hout, hws⟩ := save_inv h
  have hsorted : res.final.Pairwise rowLe := finalData_sorted hfin
  have hkeysne : res.final.Pairwise (fun r s => rowKey r ≠ rowKey s) :=
    List.pairwise_map.mp (final_rowKey_nodup h)
  have hok : ∀ r ∈ res.final, sortKeyOk r = true := finalData_sortKeyOk hfin
  refine (hsorted.and hkeysne).imp_of_mem ?_
  intro r s hr hs hrs
  obtain ⟨hle, hne⟩ := hrs
  cases hlt : pairLtB (rowKeyStr r) (rowKeyStr s) with
  | true => rfl
  | false =>
    exfalso
    have heq : rowKeyStr r = rowKeyStr s := pairLtB_conn hlt hle
    apply hne
    rw [rowKey_of_sortKeyOk (hok r hr), rowKey_of_sortKeyOk (hok s hs), heq]

/-- Witness for the amended C6 at a concrete run. -/
theorem sorted_by_symbol_then_date_witness :
    ∃ res, save_prices_to_csv (some exampleFile) [exampleNew] exampleCut = some res ∧
      res.final.Pairwise (fun r s => pairLtB (rowKeyStr r) (rowKeyStr s) = true) := by
  cases hres : save_prices_to_csv (some exampleFile) [exampleNew] exampleCut with
  | none => exact absurd hres (by decide)
  | some res => exact ⟨res, rfl, sorted_by_symbol_then_date hres⟩

/-! ## Claim C3: retention filtering -/

/-- Does every row of a dataset carry a parseable `Date` at or after the
cutoff?  (The property the claim asserts of the whole post-merge
dataset.) -/
def allRowsDateGe (cut : PyDate) (rows : List Row) : Bool :=
  rows.all (fun r =>
    match (getStr "Date" r).bind parseDate with
    | some d => dateLeB cut d
    | none => false)

def staleNew : NewRecord := ⟨"OLD", ⟨2020, 1, 1⟩, "Stale Fund", "AUD", mkPyFloat 1 0⟩

/-- Counterexample to C3: a new record dated 2020-01-01 with retention
cutoff 2025-01-01 lands in the post-merge dataset — new records bypass
the retention filter, so not every post-merge row has
`Date >= retentionCutoff`. -/
theorem retention_counterexample :
    (save_prices_to_csv none [staleNew] exampleCut).map
      (fun res => allRowsDateGe exampleCut res.final) = some false := by decide

/-- Claim C3 (amended): retention filtering is exact and symmetric for the
rows of the existing file: every loaded row's `Date` is at or after the
cutoff (a row dated exactly at the cutoff is retained, since the test is
`row_date >= earliest_date`), and a decoded row is dropped by the
retention filter precisely when its parsed `Date` is strictly before the
cutoff.  New records are not retention-filtered. -/
theorem retention_filter_amended {file : Option (List (List String))}
    {cut : PyDate} {rows : List Row} {ws : List Warn}
    (h : loadFile file cut = some (rows, ws)) :
    (∀ r ∈ rows, rowOkDate cut r) ∧
    (∀ fieldnames fields, processRow fieldnames cut fields = RowStep.dropOld ↔
      ∃ s d, pdGet (some "Date") (readerRow fieldnames fields) = some (PyVal.str s) ∧
        parseDate s = some d ∧ dateLeB cut d = false) := by
  refine ⟨fun r hr => (loadFile_ok h r hr).1, ?_⟩
  intro fieldnames fields
  exact processRow_dropOld_iff fieldnames cut fields

/-- Witness for the amended C3: of three existing rows dated 2024-06-01
(dropped), 2025-01-01 (exactly the cutoff — retained) and 2025-06-01
(retained), the load keeps exactly the latter two. -/
theorem retention_filter_amended_witness :
    ∃ rows ws, loadFile (some exampleFile) exampleCut = some (rows, ws) ∧
      (∀ r ∈ rows, rowOkDate exampleCut r) ∧
      rows.length = 2 ∧
      processRow header exampleCut ["BBB", "2024-06-01", "Fund B", "AUD", "2.00"] =
        RowStep.dropOld ∧
      (getStr "Date" <$> rows) = [some "2025-06-01", some "2025-01-01"] := by
  cases hload : loadFile (some exampleFile) exampleCut with
  | none => exact absurd hload (by decide)
  | some p =>
    obtain ⟨rows, ws⟩ := p
    have hparts := retention_filter_amended hload
    refine ⟨rows, ws, rfl, hparts.1, ?_, ?_, ?_⟩
    · have : some (rows, ws) = loadFile (some exampleFile) exampleCut := hload.symm
      have hlen : (loadFile (some exampleFile) exampleCut).map
          (fun p => p.1.length) = some 2 := by decide
      rw [← this] at hlen
      exact Option.some.inj hlen
    · exact (hparts.2 header ["BBB", "2024-06-01", "Fund B", "AUD", "2.00"]).mpr
        (by refine ⟨"2024-06-01", ⟨2024, 6, 1⟩, ?_, ?_, ?_⟩ <;> decide)
    · have hdates : (loadFile (some exampleFile) exampleCut).map
          (fun p => getStr "Date" <$> p.1) =
          some [some "2025-06-01", some "2025-01-01"] := by decide
      rw [hload] at hdates
      exact Option.some.inj hdates

/-! ## Claim C5: header mismatch handling -/

/-- The load step as the specification words it (§4.3 step 1, §7): on a
header mismatch, warn and decode all remaining rows with the *declared*
schema header instead of the file's own header line. -/
def loadFileDeclaredSpec (file : Option (List (List String))) (earliest_date : PyDate) :
    Option (List Row × List Warn) :=
  match file with
  | none => some ([], [])
  | some [] => some ([], [Warn.headerMismatch])
  | some (hdr :: rest) =>
    (loadRows header earliest_date rest).map (fun p =>
      (p.1, (if hdr = header then [] else [Warn.headerMismatch]) ++ p.2))

def c5File : List (List String) :=
  [["Symbol", "When", "Name", "Currency", "Price"],
   ["AAA", "2025-06-01", "Fund A", "AUD", "1.05"]]

/-- Counterexample to C5: the file's header renames `Date` to `When`.
Decoding with the declared header (the spec's reading) yields the row;
the code decodes with the file's own header, hits `KeyError` on
`row["Date"]` and skips the row, so the code's load result differs from
declared-header decoding. -/
theorem header_mismatch_counterexample :
    (loadFile (some c5File) exampleCut).map (fun p => p.1.length) = some 0 ∧
    (loadFileDeclaredSpec (some c5File) exampleCut).map (fun p => p.1.length) = some 1 ∧
    loadFile (some c5File) exampleCut ≠ loadFileDeclaredSpec (some c5File) exampleCut := by
  refine ⟨by decide, by decide, by decide⟩

/-- Claim C5 (amended): on a header mismatch the load logs a warning and
then decodes the remaining rows using the file's *own* header line as
`DictReader` fieldnames (columns the file does not name under the
declared names are simply absent from the decoded rows). -/
theorem header_mismatch_amended {hdr : List String} {rest : List (List String)}
    {cut : PyDate} (hne : hdr ≠ header) :
    loadFile (some (hdr :: rest)) cut =
      (loadRows hdr cut rest).map (fun p => (p.1, Warn.headerMismatch :: p.2)) ∧
    ∀ rows ws, loadFile (some (hdr :: rest)) cut = some (rows, ws) →
      Warn.headerMismatch ∈ ws := by
  constructor
  · simp only [loadFile, if_neg hne]
    rfl
  · intro rows ws h
    simp only [loadFile, if_neg hne, Option.map_eq_some'] at h
    obtain ⟨⟨rows', ws'⟩, hrec, heq⟩ := h
    cases heq
    exact List.mem_cons_self _ _

/-- Witness for the amended C5 at the renamed-`Date` file. -/
theorem header_mismatch_amended_witness :
    loadFile (some c5File) exampleCut =
      (loadRows ["Symbol", "When", "Name", "Currency", "Price"] exampleCut
        (c5File.drop 1)).map (fun p => (p.1, Warn.headerMismatch :: p.2)) ∧
    ∀ rows ws, loadFile (some c5File) exampleCut = some (rows, ws) →
      Warn.headerMismatch ∈ ws := by
  have h := @header_mismatch_amended
    ["Symbol", "When", "Name", "Currency", "Price"]
    (c5File.drop 1) exampleCut (by decide)
  exact h

/-! ## Claim C8: numeric serialization format -/

/-- Does the `Price` field (5th column) of a data line have exactly two
digits after the decimal point? -/
def priceFieldTwoDecimals (ln : List String) : Bool :=
  match ln[4]? with
  | some s =>
    match splitAtDot s.data with
    | (_, some frac) => frac.length == 2
    | (_, none) => false
  | none => false

/-- The property the claim asserts of every persisted file: all data
lines carry a two-decimal Price. -/
def fileTwoDecimals (file : List (List String)) : Bool :=
  (file.drop 1).all priceFieldTwoDecimals

def halfNew : NewRecord := ⟨"HHH", ⟨2025, 6, 1⟩, "Fund H", "AUD", mkPyFloat 15 1⟩

/-- Counterexample to C8: persisting a record with price 1.5 writes the
field `"1.5"` — `str(float)`, one decimal digit — because the declared
`".2f"` `numericFormat` of `csv_header_config` is never applied by
`save_prices_to_csv`. -/
theorem price_two_decimals_counterexample :
    (mergeFile none [halfNew] exampleCut).map fileTwoDecimals = some false := by decide

/-- Claim C8 (amended): every persisted `Price` field is produced by
Python's default float-to-string conversion of the row's float value
(value-preserving shortest decimal form, not a fixed two-decimal
format): the written text re-parses to exactly the stored value. -/
theorem price_serialization_amended {file : Option (List (List String))}
    {news : List NewRecord} {cut : PyDate} {res : RunResult}
    (h : save_prices_to_csv file news cut = some res) :
    ∀ ln ∈ res.file.drop 1, ∃ r ∈ res.final, ln = encRow r ∧
      ∃ fl, pdGet (some "Price") r = some (PyVal.float fl) ∧
        ln[4]? = some (pyFloatStr fl) ∧ parseFloat (pyFloatStr fl) = some fl := by
  obtain ⟨ex, ws, m, hload, hm, hfin, hout, hws⟩ := save_inv h
  obtain ⟨hfile, hall⟩ := serializeRows_inv hout
  intro ln hline
  rw [hfile] at hline
  simp only [List.drop_succ_cons, List.drop_zero] at hline
  obtain ⟨r, hr, henc⟩ := List.mem_map.mp hline
  obtain ⟨fl, hfl⟩ := final_rowOkPrice h r hr
  refine ⟨r, hr, henc.symm, fl, hfl, ?_, parseFloat_pyFloatStr fl⟩
  rw [← henc]
  show (encRow r)[4]? = some (pyFloatStr fl)
  simp only [encRow, header, List.map_cons, List.map_nil]
  simp only [List.getElem?_cons_succ, List.getElem?_cons_zero]
  rw [hfl]
  rfl

/-- Witness for the amended C8 at the price-1.5 run. -/
theorem price_serialization_amended_witness :
    ∃ res, save_prices_to_csv none [halfNew] exampleCut = some res ∧
      ∀ ln ∈ res.file.drop 1, ∃ r ∈ res.final, ln = encRow r ∧
        ∃ fl, pdGet (some "Price") r = some (PyVal.float fl) ∧
          ln[4]? = some (pyFloatStr fl) ∧ parseFloat (pyFloatStr fl) = some fl := by
  cases hres : save_prices_to_csv none [halfNew] exampleCut with
  | none => exact absurd hres (by decide)
  | some res => exact ⟨res, rfl, price_serialization_amended hres⟩

/-! ## Claim C4: persist is not an atomic replace -/

theorem writeLinesUpTo_eq_take :
    ∀ (k : Nat) (lines : List (List String)), writeLinesUpTo k lines = lines.take k := by
  intro k lines
  induction lines generalizing k with
  | nil => cases k <;> rfl
  | cons l ls ih =>
    cases k with
    | zero => rfl
    | succ k =>
      simp only [writeLinesUpTo, List.take_succ_cons]
      rw [ih]

def c4Prior : List (List String) :=
  [header, ["AAA", "2025-01-01", "Fund A", "AUD", "9.99"]]

/-- Counterexample to C4: the code opens the target with mode `"w"`
(truncating it) and writes in place — no temporary file, no rename.  An
`OSError` before any line is flushed leaves the file empty: the prior
backing file does not remain intact. -/
theorem persist_atomic_counterexample :
    persist (some c4Prior) c4Prior (PersistOutcome.writeFail 0) = (some [], true) ∧
      some ([] : List (List String)) ≠ some c4Prior := by
  exact ⟨rfl, by decide⟩

/-- Claim C4 (amended): persist writes header and rows directly into the
truncated target file.  On success the file holds exactly the new
serialization and no fatal error is reported; if the open itself fails
the prior file is untouched and a fatal error is reported; if an I/O
error strikes after `k` line writes, a fatal error is reported but the
file is left holding the first `k` lines of the *new* content — a
partial write replaces the prior good file, there is no atomic
temp-file-then-rename step. -/
theorem persist_amended (prior : Option (List (List String)))
    (lines : List (List String)) :
    persist prior lines PersistOutcome.ok = (some lines, false) ∧
    persist prior lines PersistOutcome.openFail = (prior, true) ∧
    ∀ k, persist prior lines (PersistOutcome.writeFail k) =
      (some (lines.take k), true) := by
  refine ⟨rfl, rfl, ?_⟩
  intro k
  simp only [persist, writeLinesUpTo_eq_take]

/-! ## Claim C9: malformed-row tolerance -/

def c9GoodRows : List (List String) :=
  [["AAA", "2025-06-01", "Fund A", "AUD", "1.01"],
   ["BBB", "2025-06-02", "Fund B", "AUD", "1.02"],
   ["CCC", "2025-06-03", "Fund C", "AUD", "1.03"],
   ["DDD", "2025-06-04", "Fund D", "AUD", "1.04"],
   ["EEE", "2025-06-05", "Fund E", "AUD", "1.05"],
   ["FFF", "2025-06-06", "Fund F", "AUD", "1.06"],
   ["GGG", "2025-06-07", "Fund G", "AUD", "1.07"],
   ["HHH", "2025-06-08", "Fund H", "AUD", "1.08"],
   ["III", "2025-06-09", "Fund I", "AUD", "1.09"]]

/-- Nine well-formed rows plus one row with a non-numeric Price. -/
def c9FileNonNumeric : List (List String) :=
  header :: c9GoodRows ++ [["JJJ", "2025-06-10", "Fund J", "AUD", "abc"]]

/-- Nine well-formed rows plus one row with only three fields, so
`DictReader` fills `Currency` and `Price` with `restval=None`. -/
def c9FileShort : List (List String) :=
  header :: c9GoodRows ++ [["JJJ", "2025-06-10", "Fund J"]]

/-- Evaluation of the code at C9's inputs.  The claim's own example holds:
a row whose Price is the non-numeric string `"abc"` raises `ValueError`,
which the `except (ValueError, KeyError)` clause catches — nine rows
load and a warning is recorded.  But the claim's universal statement is
false: a short row makes `row["Price"]` the value `None`, `float(None)`
raises `TypeError`, which that clause does not catch, and the whole load
aborts instead of skipping the row. -/
theorem malformed_row_eval :
    (loadFile (some c9FileNonNumeric) exampleCut).map
        (fun p => (p.1.length, p.2)) =
      some (9, [Warn.skipRow ["JJJ", "2025-06-10", "Fund J", "AUD", "abc"]]) ∧
    loadFile (some c9FileShort) exampleCut = none := by
  exact ⟨by decide, by decide⟩

/-! ## Claim C7: idempotence of the empty merge -/

/-- The float stored in a row's `Price` cell. -/
def priceVal (r : Row) : PyFloat :=
  match pdGet (some "Price") r with
  | some (PyVal.float f) => f
  | _ => mkPyFloat 0 0

/-- The row that reloading a serialized well-formed row reconstructs:
the five declared columns, sort keys and pass-through fields as the
rendered strings, `Price` re-coerced to the same float. -/
def canonRow (r : Row) : Row :=
  [(some "Symbol", PyVal.str ((getStr "Symbol" r).getD "")),
   (some "Date", PyVal.str ((getStr "Date" r).getD "")),
   (some "Name", PyVal.str (renderVal ((pdGet (some "Name") r).getD (PyVal.str "")))),
   (some "Currency", PyVal.str (renderVal ((pdGet (some "Currency") r).getD (PyVal.str "")))),
   (some "Price", PyVal.float (priceVal r))]

theorem readerRow_header (a b c d e : String) :
    readerRow header [a, b, c, d, e] =
      [(some "Symbol", PyVal.str a), (some "Date", PyVal.str b),
       (some "Name", PyVal.str c), (some "Currency", PyVal.str d),
       (some "Price", PyVal.str e)] := rfl

theorem rowKeyStr_canonRow (r : Row) : rowKeyStr (canonRow r) = rowKeyStr r := rfl

theorem sortKeyOk_canonRow (r : Row) : sortKeyOk (canonRow r) = true := rfl

theorem rowKey_canonRow (r : Row) :
    rowKey (canonRow r) =
      some (PyVal.str (rowKeyStr r).1, PyVal.str (rowKeyStr r).2) := rfl

/-- The fields a well-formed row serializes to, made explicit. -/
theorem encRow_explicit {cut : PyDate} {r : Row}
    (hd : rowOkDate cut r) (hp : rowOkPrice r) (hs : sortKeyOk r = true) :
    ∃ s p, pdGet (some "Date") r = some (PyVal.str s) ∧
      pdGet (some "Price") r = some (PyVal.float p) ∧
      encRow r = [(rowKeyStr r).1, s,
        renderVal ((pdGet (some "Name") r).getD (PyVal.str "")),
        renderVal ((pdGet (some "Currency") r).getD (PyVal.str "")),
        pyFloatStr p] ∧
      (∃ d, parseDate s = some d ∧ dateLeB cut d = true) ∧
      priceVal r = p := by
  obtain ⟨s, d, hDs, hPd, hLe⟩ := hd
  obtain ⟨p, hPr⟩ := hp
  obtain ⟨hSym, hDat⟩ := sortKeyOk_parts hs
  refine ⟨s, p, hDs, hPr, ?_, ⟨d, hPd, hLe⟩, ?_⟩
  · simp only [encRow, header, List.map_cons, List.map_nil]
    rw [hSym, hDs, hPr]
    rfl
  · simp only [priceVal, hPr]

/-- Reloading the serialized form of a well-formed row keeps exactly its
canonical reconstruction. -/
theorem processRow_encRow {cut : PyDate} {r : Row}
    (hd : rowOkDate cut r) (hp : rowOkPrice r) (hs : sortKeyOk r = true) :
    processRow header cut (encRow r) = RowStep.keep (canonRow r) := by
  obtain ⟨s, p, hDs, hPr, hEnc, ⟨d, hPd, hLe⟩, hPv⟩ := encRow_explicit hd hp hs
  rw [hEnc]
  set nm := renderVal ((pdGet (some "Name") r).getD (PyVal.str "")) with hnm
  set cu := renderVal ((pdGet (some "Currency") r).getD (PyVal.str "")) with hcu
  simp only [processRow, readerRow_header]
  have hget : pdGet (some "Date")
      [(some "Symbol", PyVal.str (rowKeyStr r).1), (some "Date", PyVal.str s),
       (some "Name", PyVal.str nm), (some "Currency", PyVal.str cu),
       (some "Price", PyVal.str (pyFloatStr p))] = some (PyVal.str s) := rfl
  rw [hget]
  simp only [hPd, hLe, if_true]
  have hgetp : pdGet (some "Price")
      [(some "Symbol", PyVal.str (rowKeyStr r).1), (some "Date", PyVal.str s),
       (some "Name", PyVal.str nm), (some "Currency", PyVal.str cu),
       (some "Price", PyVal.str (pyFloatStr p))] = some (PyVal.str (pyFloatStr p)) := rfl
  rw [hgetp]
  simp only [parseFloat_pyFloatStr]
  have hcanon : pdInsert (some "Price") (PyVal.float p)
      [(some "Symbol", PyVal.str (rowKeyStr r).1), (some "Date", PyVal.str s),
       (some "Name", PyVal.str nm), (some "Currency", PyVal.str cu),
       (some "Price", PyVal.str (pyFloatStr p))] = canonRow r := by
    show [(some "Symbol", PyVal.str (rowKeyStr r).1), (some "Date", PyVal.str s),
       (some "Name", PyVal.str nm), (some "Currency", PyVal.str cu),
       (some "Price", PyVal.float p)] = canonRow r
    have hs' : ((getStr "Date" r).getD "") = s := by
      rw [getStr_eq_some.mpr hDs]
      rfl
    simp only [canonRow, hs', hPv, hnm, hcu]
    rfl
  rw [hcanon]

/-- Reloading the serialization of a list of well-formed rows keeps their
canonical reconstructions, in order, with no warnings. -/
theorem loadRows_encRow {cut : PyDate} {rows : List Row}
    (hok : ∀ r ∈ rows, rowOkDate cut r ∧ rowOkPrice r ∧ sortKeyOk r = true) :
    loadRows header cut (rows.map encRow) = some (rows.map canonRow, []) := by
  induction rows with
  | nil => rfl
  | cons r rest ih =>
    obtain ⟨hd, hp, hs⟩ := hok r (List.mem_cons_self _ _)
    have hemp : (encRow r).isEmpty = false := rfl
    simp only [List.map_cons, loadRows, hemp, if_false,
      processRow_encRow hd hp hs]
    rw [ih (fun x hx => hok x (List.mem_cons_of_mem _ hx))]
    rfl

theorem pdKeys_append {κ ν : Type} (a b : PyDict κ ν) :
    pdKeys (a ++ b) = pdKeys a ++ pdKeys b := by
  simp [pdKeys]

/-- Inserting rows with pairwise-distinct fresh keys appends them in
order. -/
theorem insertRows_eq_append (key : Row → PyVal × PyVal) :
    ∀ {rows : List Row} {m : PyDict (PyVal × PyVal) Row},
      (∀ r ∈ rows, rowKey r = some (key r)) →
      (rows.map key).Nodup →
      (∀ r ∈ rows, key r ∉ pdKeys m) →
      insertRows rows m = some (m ++ rows.map (fun r => (key r, r))) := by
  intro rows
  induction rows with
  | nil =>
    intro m _ _ _
    simp [insertRows]
  | cons r rest ih =>
    intro m hkey hnd hdisj
    simp only [insertRows, hkey r (List.mem_cons_self _ _)]
    rw [pdInsert_fresh r (hdisj r (List.mem_cons_self _ _))]
    rw [List.map_cons, List.nodup_cons] at hnd
    have ih' := @ih (m ++ [(key r, r)])
      (fun x hx => hkey x (List.mem_cons_of_mem _ hx)) hnd.2 ?_
    · rw [ih']
      simp
    · intro x hx
      rw [pdKeys_append]
      simp only [List.mem_append]
      push_neg
      constructor
      · exact hdisj x (List.mem_cons_of_mem _ hx)
      · show key x ∉ pdKeys [(key r, r)]
        simp only [pdKeys, List.map_cons, List.map_nil, List.mem_singleton]
        intro heq
        exact hnd.1 (heq ▸ List.mem_map_of_mem key hx)

theorem canonRow_keys_ok (r : Row) :
    (canonRow r).all (fun p => decide (p.1 ∈ header.map some)) = true := rfl

theorem encodeAll_of_ok {rows : List Row}
    (h : ∀ r ∈ rows, r.all (fun p => decide (p.1 ∈ header.map some)) = true) :
    encodeAll rows = some (rows.map encRow) := by
  induction rows with
  | nil => rfl
  | cons r rest ih =>
    simp only [encodeAll, writeRowFields, if_pos (h r (List.mem_cons_self _ _))]
    rw [ih (fun x hx => h x (List.mem_cons_of_mem _ hx))]
    rfl

theorem encRow_canonRow {r : Row} (hs : sortKeyOk r = true) (hp : rowOkPrice r) :
    encRow (canonRow r) = encRow r := by
  obtain ⟨p, hPr⟩ := hp
  obtain ⟨hSym, hDat⟩ := sortKeyOk_parts hs
  have hL : encRow (canonRow r) =
      [(getStr "Symbol" r).getD "", (getStr "Date" r).getD "",
       renderVal ((pdGet (some "Name") r).getD (PyVal.str "")),
       renderVal ((pdGet (some "Currency") r).getD (PyVal.str "")),
       pyFloatStr (priceVal r)] := rfl
  have hR : encRow r =
      [renderVal ((pdGet (some "Symbol") r).getD (PyVal.str "")),
       renderVal ((pdGet (some "Date") r).getD (PyVal.str "")),
       renderVal ((pdGet (some "Name") r).getD (PyVal.str "")),
       renderVal ((pdGet (some "Currency") r).getD (PyVal.str "")),
       renderVal ((pdGet (some "Price") r).getD (PyVal.str ""))] := rfl
  rw [hL, hR, hSym, hDat, hPr]
  simp only [priceVal, hPr]
  rfl

/-- Claim C7: merging an empty new-record set is idempotent on the backing
file — whenever a run with no new records and cutoff `cut` succeeds and
leaves the file `f1`, running again on `f1` with the same cutoff succeeds
and leaves the byte-identical file `f1`. -/
theorem merge_empty_idempotent {file : Option (List (List String))} {cut : PyDate}
    {f1 : List (List String)} (h : mergeFile file [] cut = some f1) :
    mergeFile (some f1) [] cut = some f1 := by
  simp only [mergeFile, Option.map_eq_some'] at h ⊢
  obtain ⟨res, hres, hf1⟩ := h
  obtain ⟨ex, ws, m, hload, hm, hfin, hout, hws⟩ := save_inv hres
  have hdate := final_rowOkDate_empty_news hres
  have hprice := final_rowOkPrice hres
  have hsk := finalData_sortKeyOk hfin
  obtain ⟨hfile, hwr⟩ := serializeRows_inv hout
  have hf1' : f1 = header :: res.final.map encRow := by rw [← hf1, hfile]
  have hload2 : loadFile (some f1) cut = some (res.final.map canonRow, []) := by
    rw [hf1']
    simp only [loadFile, if_pos rfl]
    rw [loadRows_encRow (fun r hr => ⟨hdate r hr, hprice r hr, hsk r hr⟩)]
    rfl
  have hknodup : (res.final.map
      (fun r => ((PyVal.str (rowKeyStr r).1, PyVal.str (rowKeyStr r).2) : PyVal × PyVal))).Nodup := by
    have h1 : res.final.map rowKey = res.final.map
        (fun r => some ((PyVal.str (rowKeyStr r).1, PyVal.str (rowKeyStr r).2) : PyVal × PyVal)) :=
      List.map_congr_left (fun r hr => rowKey_of_sortKeyOk (hsk r hr))
    have h2 := final_rowKey_nodup hres
    rw [h1, show res.final.map
        (fun r => some ((PyVal.str (rowKeyStr r).1, PyVal.str (rowKeyStr r).2) : PyVal × PyVal)) =
      (res.final.map
        (fun r => ((PyVal.str (rowKeyStr r).1, PyVal.str (rowKeyStr r).2) : PyVal × PyVal))).map some
      from (List.map_map _ _ _).symm] at h2
    exact h2.of_map some
  have hbuild2 : buildMerged (res.final.map canonRow) [] =
      some ((res.final.map canonRow).map
        (fun x => ((PyVal.str (rowKeyStr x).1, PyVal.str (rowKeyStr x).2), x))) := by
    simp only [buildMerged]
    rw [insertRows_eq_append
      (fun x => (PyVal.str (rowKeyStr x).1, PyVal.str (rowKeyStr x).2)) ?_ ?_ ?_]
    · simp [insertRows]
    · intro x hx
      obtain ⟨r, _, rfl⟩ := List.mem_map.mp hx
      exact rowKey_canonRow r
    · have : (res.final.map canonRow).map
          (fun x => ((PyVal.str (rowKeyStr x).1, PyVal.str (rowKeyStr x).2) : PyVal × PyVal)) =
          res.final.map
          (fun r => ((PyVal.str (rowKeyStr r).1, PyVal.str (rowKeyStr r).2) : PyVal × PyVal)) := by
        rw [List.map_map]
        exact List.map_congr_left (fun r _ => by rw [Function.comp_apply, rowKeyStr_canonRow])
      rw [this]
      exact hknodup
    · intro x hx
      simp [pdKeys]
  have hvals : pdValues ((res.final.map canonRow).map
      (fun x => ((PyVal.str (rowKeyStr x).1, PyVal.str (rowKeyStr x).2), x))) =
      res.final.map canonRow := by
    simp [pdValues, List.map_map]
  have hsorted2 : List.Sorted rowLe (res.final.map canonRow) := by
    have hs1 : List.Sorted rowLe res.final := finalData_sorted hfin
    exact List.pairwise_map.mpr (hs1.imp (fun {a b} hab => hab))
  have hfin2 : finalData ((res.final.map canonRow).map
      (fun x => ((PyVal.str (rowKeyStr x).1, PyVal.str (rowKeyStr x).2), x))) =
      some (res.final.map canonRow) := by
    simp only [finalData, hvals]
    rw [if_pos ?_]
    · rw [List.Sorted.insertionSort_eq hsorted2]
    · refine List.all_eq_true.mpr (fun x hx => ?_)
      obtain ⟨r, _, rfl⟩ := List.mem_map.mp hx
      exact sortKeyOk_canonRow r
  have hser2 : serializeRows (res.final.map canonRow) = some f1 := by
    simp only [serializeRows]
    rw [encodeAll_of_ok ?_]
    · rw [show (res.final.map canonRow).map encRow = res.final.map encRow from by
        rw [List.map_map]
        exact List.map_congr_left
          (fun r hr => by rw [Function.comp_apply, encRow_canonRow (hsk r hr) (hprice r hr)])]
      rw [hf1']
      rfl
    · intro x hx
      obtain ⟨r, _, rfl⟩ := List.mem_map.mp hx
      exact canonRow_keys_ok r
  refine ⟨⟨res.final.map canonRow, f1, []⟩, ?_, rfl⟩
  simp only [save_prices_to_csv, List.map_nil, hload2, hbuild2, hfin2, hser2]

/-- Witness for C7: running the empty merge on the concrete example file
and then running it again on the output reproduces the output exactly. -/
theorem merge_empty_idempotent_witness :
    ∃ f1, mergeFile (some exampleFile) [] exampleCut = some f1 ∧
      mergeFile (some f1) [] exampleCut = some f1 := by
  cases hm1 : mergeFile (some exampleFile) [] exampleCut with
  | none => exact absurd hm1 (by decide)
  | some f1 => exact ⟨f1, rfl, merge_empty_idempotent hm1⟩
